import Mathlib

/-!
# SimpleKV: a namespaced key-value store

A shallow embedding of `src/SimpleKV.hpp` / `src/SimpleKV.cpp`.

The private member `kv_store` is a
`std::unordered_map<std::string, std::unordered_map<std::string, ValueType>>`.
Both levels are embedded as association lists whose order stands for the
(unspecified) iteration order of the hash table.  The container guarantee that
a key occurs at most once is the predicate `WF`; the operations are defined on
all association lists and are shown to preserve `WF`.

* `find(k)` is `mfind`: the entry with key `k`, if any;
* assignment through an iterator or reference obtained from `find(k)` is `mset`;
* `erase(it)` for an iterator obtained from `find(k)` is `merase`;
* `m[k] = v` for a key that `find` did not locate is a new entry, put at the head.

Every member function that mutates the store returns its result together with
the store after the call.  `rpop` alone can reach undefined behaviour (it erases
through an iterator that it has already erased); its embedding returns `none`
there.
-/

namespace simplekv

/-- The enum `value_type_info` of the header. -/
inductive value_type_info where
  | none
  | string
  | list
  deriving DecidableEq, Repr

/-- The variant `ValueType = std::variant<std::string, std::vector<std::string>>`. -/
inductive ValueType where
  | str (s : String)
  | list (l : List String)
  deriving DecidableEq, Repr

/-- The inner map of one namespace: key name to value. -/
abbrev KeyMap := List (String × ValueType)

/-- The member `kv_store`: namespace name to the map of its keys. -/
abbrev SimpleKV := List (String × KeyMap)

/-! ## Container primitives -/

/-- The call `m.find(k)`: the mapped value of the entry with key `k`, or `none` for `m.end()`. -/
def mfind {β : Type} : List (String × β) → String → Option β
  | [], _ => none
  | (a, b) :: rest, k => if a = k then some b else mfind rest k

/-- Assignment `it->second = v` through the iterator returned by `m.find(k)`. -/
def mset {β : Type} : List (String × β) → String → β → List (String × β)
  | [], _, _ => []
  | (a, b) :: rest, k, v => if a = k then (a, v) :: rest else (a, b) :: mset rest k v

/-- The call `m.erase(it)` for the iterator returned by `m.find(k)`. -/
def merase {β : Type} : List (String × β) → String → List (String × β)
  | [], _ => []
  | (a, b) :: rest, k => if a = k then rest else (a, b) :: merase rest k

/-- The two successive `find` calls used by `type`, `del`, `sset`, `lindex`, `lpush`,
`lpop`, `rpush`, `rpop`: the value stored under `(nspace, key)`, if both are found. -/
def lookup (s : SimpleKV) (nspace key : String) : Option ValueType :=
  match mfind s nspace with
  | none => none
  | some key_map => mfind key_map key

/-- The inner range-for of `key_exists`, `sget`, `llen`, `lmembers`:
the value of the first `keypair` with `keypair.first == key`, where the loop returns. -/
def scanKeys : KeyMap → String → Option ValueType
  | [], _ => none
  | (k, v) :: rest, key => if k = key then some v else scanKeys rest key

/-- The nested range-for loops of `key_exists`, `sget`, `llen`, `lmembers`: the outer loop
visits every `pair` of `kv_store`, and for `pair.first == nspace` runs the inner loop; the
result is the value at which the function returns from inside the loops, `none` when both
loops run to completion. -/
def scan : SimpleKV → String → String → Option ValueType
  | [], _, _ => none
  | (n, key_map) :: rest, nspace, key =>
    if n = nspace then
      match scanKeys key_map key with
      | some v => some v
      | none => scan rest nspace key
    else scan rest nspace key

/-! ## General operations -/

/-- `SimpleKV::namespaces`. -/
def namespaces (s : SimpleKV) : List String :=
  s.map Prod.fst

/-- `SimpleKV::keys`. -/
def keys : SimpleKV → String → List String
  | [], _ => []
  | (n, key_map) :: rest, nspace =>
    if n = nspace then key_map.map Prod.fst ++ keys rest nspace else keys rest nspace

/-- `SimpleKV::ns_exists`. -/
def ns_exists (s : SimpleKV) (nspace : String) : Bool :=
  (mfind s nspace).isSome

/-- `SimpleKV::key_exists`. -/
def key_exists (s : SimpleKV) (nspace key : String) : Bool :=
  match scan s nspace key with
  | some _ => true
  | none => false

/-- `SimpleKV::type`. -/
def type (s : SimpleKV) (nspace key : String) : value_type_info :=
  match mfind s nspace with
  | none => value_type_info.none
  | some key_map =>
    match mfind key_map key with
    | none => value_type_info.none
    | some (ValueType.list _) => value_type_info.list
    | some (ValueType.str _) => value_type_info.string

/-- `SimpleKV::del`: the returned flag and the store after the call. -/
def del (s : SimpleKV) (nspace key : String) : Bool × SimpleKV :=
  match mfind s nspace with
  | none => (false, s)
  | some key_map =>
    match mfind key_map key with
    | none => (false, s)
    | some _ =>
      let key_map2 := merase key_map key
      if key_map2.isEmpty then (true, merase s nspace)
      else (true, mset s nspace key_map2)

/-! ## String operations -/

/-- `SimpleKV::sget`. -/
def sget (s : SimpleKV) (nspace key : String) : Option String :=
  match scan s nspace key with
  | some (ValueType.str x) => some x
  | some (ValueType.list _) => none
  | none => none

/-- `SimpleKV::sset`: the store after the call. -/
def sset (s : SimpleKV) (nspace key value : String) : SimpleKV :=
  match mfind s nspace with
  | some key_map =>
    match mfind key_map key with
    | some _ => mset s nspace (mset key_map key (ValueType.str value))
    | none => mset s nspace ((key, ValueType.str value) :: key_map)
  | none => (nspace, [(key, ValueType.str value)]) :: s

/-! ## List operations -/

/-- `SimpleKV::llen`; the result type `ssize_t` is embedded as `Int`. -/
def llen (s : SimpleKV) (nspace key : String) : Int :=
  match scan s nspace key with
  | some (ValueType.list l) => (l.length : Int)
  | some (ValueType.str _) => -1
  | none => -1

/-- `SimpleKV::lindex`; the index type `size_t` is embedded as `Nat`. -/
def lindex (s : SimpleKV) (nspace key : String) (index : Nat) : Option String :=
  match mfind s nspace with
  | none => none
  | some key_map =>
    match mfind key_map key with
    | none => none
    | some (ValueType.list l) => if index < l.length then l.get? index else none
    | some (ValueType.str _) => none

/-- `SimpleKV::lmembers`. -/
def lmembers (s : SimpleKV) (nspace key : String) : Option (List String) :=
  match scan s nspace key with
  | some (ValueType.list l) => some l
  | some (ValueType.str _) => none
  | none => none

/-- The inner loop of `SimpleKV::lset` over the keys of one namespace (by reference):
`none` when the loop ends without a matching key, otherwise the returned flag and the
key map after the write. -/
def lsetKeys : KeyMap → String → Nat → String → Option (Bool × KeyMap)
  | [], _, _, _ => none
  | (k, v) :: rest, key, index, value =>
    if k = key then
      match v with
      | ValueType.list l =>
        if index < l.length then some (true, (k, ValueType.list (l.set index value)) :: rest)
        else some (false, (k, v) :: rest)
      | ValueType.str _ => some (false, (k, v) :: rest)
    else
      match lsetKeys rest key index value with
      | some (r, rest2) => some (r, (k, v) :: rest2)
      | none => none

/-- `SimpleKV::lset`: the returned flag and the store after the call.  The guard
`index < 0` of the source is never true for the unsigned `size_t`. -/
def lset : SimpleKV → String → String → Nat → String → Bool × SimpleKV
  | [], _, _, _, _ => (false, [])
  | (n, key_map) :: rest, nspace, key, index, value =>
    if n = nspace then
      match lsetKeys key_map key index value with
      | some (r, key_map2) => (r, (n, key_map2) :: rest)
      | none =>
        let res := lset rest nspace key index value
        (res.1, (n, key_map) :: res.2)
    else
      let res := lset rest nspace key index value
      (res.1, (n, key_map) :: res.2)

/-- `SimpleKV::lpush`: the returned flag and the store after the call. -/
def lpush (s : SimpleKV) (nspace key value : String) : Bool × SimpleKV :=
  match mfind s nspace with
  | some key_map =>
    match mfind key_map key with
    | some (ValueType.list l) =>
      (true, mset s nspace (mset key_map key (ValueType.list (value :: l))))
    | some (ValueType.str _) => (false, s)
    | none => (true, mset s nspace ((key, ValueType.list [value]) :: key_map))
  | none => (true, (nspace, [(key, ValueType.list [value])]) :: s)

/-- `SimpleKV::lpop`: the returned optional and the store after the call. -/
def lpop (s : SimpleKV) (nspace key : String) : Option String × SimpleKV :=
  match mfind s nspace with
  | some key_map =>
    match mfind key_map key with
    | some (ValueType.list (popValue :: list)) =>
      if list.isEmpty then
        let key_map2 := merase key_map key
        if key_map2.isEmpty then (some popValue, merase s nspace)
        else (some popValue, mset s nspace key_map2)
      else (some popValue, mset s nspace (mset key_map key (ValueType.list list)))
    | some (ValueType.list []) => (none, s)
    | some (ValueType.str _) => (none, s)
    | none => (none, s)
  | none => (none, s)

/-- `SimpleKV::rpush`: the returned flag and the store after the call. -/
def rpush (s : SimpleKV) (nspace key value : String) : Bool × SimpleKV :=
  match mfind s nspace with
  | some key_map =>
    match mfind key_map key with
    | some (ValueType.list l) =>
      (true, mset s nspace (mset key_map key (ValueType.list (l ++ [value]))))
    | some (ValueType.str _) => (false, s)
    | none => (true, mset s nspace ((key, ValueType.list [value]) :: key_map))
  | none => (true, (nspace, [(key, ValueType.list [value])]) :: s)

/-- `SimpleKV::rpop`: `some` of the returned optional and the store after the call, or
`none` where the call has undefined behaviour.  After `kv_store.erase(first_iter)` the
source tests `kv_store.empty()` and, when the store has become empty, calls
`kv_store.erase(first_iter)` a second time on the iterator that the first erase
invalidated. -/
def rpop (s : SimpleKV) (nspace key : String) : Option (Option String × SimpleKV) :=
  match mfind s nspace with
  | some key_map =>
    match mfind key_map key with
    | some (ValueType.list list) =>
      match list.getLast? with
      | none => some (none, s)
      | some pop =>
        let list2 := list.dropLast
        let key_map2 :=
          if list2.isEmpty then merase key_map key
          else mset key_map key (ValueType.list list2)
        if key_map2.isEmpty then
          let s2 := merase s nspace
          if s2.isEmpty then none
          else some (some pop, s2)
        else some (some pop, mset s nspace key_map2)
    | some (ValueType.str _) => some (none, s)
    | none => some (none, s)
  | none => some (none, s)

/-! ## Set operations

A `std::unordered_set<std::string>` is embedded as a list without repetitions whose
order stands for the (unspecified) iteration order of the set. -/

/-- The call `set.insert(x)`: the set after the call and the flag `.second`, true iff
`x` was not yet in the set. -/
def usetInsert (set : List String) (x : String) : List String × Bool :=
  if x ∈ set then (set, false) else (x :: set, true)

/-- The range insertion `set.insert(first, last)`. -/
def usetInsertRange : List String → List String → List String
  | set, [] => set
  | set, x :: rest => usetInsertRange (usetInsert set x).1 rest

/-- The range constructor `unordered_set<string>(first, last)`. -/
def usetOfRange (l : List String) : List String :=
  usetInsertRange [] l

/-- `SimpleKV::lunion`. -/
def lunion (s : SimpleKV) (nspace1 key1 nspace2 key2 : String) : Option (List String) :=
  let type1 := type s nspace1 key1
  let type2 := type s nspace2 key2
  if type1 = value_type_info.string ∨ type2 = value_type_info.string then none
  else
    let list1 := (lmembers s nspace1 key1).getD []
    let list2 := (lmembers s nspace2 key2).getD []
    let unionSet := usetInsertRange (usetOfRange list1) list2
    some unionSet

/-- The range-for loop of `SimpleKV::linter` over `*list1`, with the sets `interSet` and
`addedSet` and the vector `interList` built so far; `&&` evaluates the insertion into
`addedSet` only for a value found in `interSet`. -/
def linterLoop (interSet : List String) :
    List String → List String → List String → List String
  | [], _, interList => interList
  | value :: rest, addedSet, interList =>
    if value ∈ interSet then
      if (usetInsert addedSet value).2 then
        linterLoop interSet rest (usetInsert addedSet value).1 (interList ++ [value])
      else linterLoop interSet rest (usetInsert addedSet value).1 interList
    else linterLoop interSet rest addedSet interList

/-- `SimpleKV::linter`. -/
def linter (s : SimpleKV) (nspace1 key1 nspace2 key2 : String) : Option (List String) :=
  match lmembers s nspace1 key1, lmembers s nspace2 key2 with
  | some list1, some list2 =>
    if type s nspace1 key1 ≠ value_type_info.list ∨
        type s nspace2 key2 ≠ value_type_info.list then none
    else some (linterLoop (usetOfRange list2) list1 [] [])
  | _, _ => none

/-- The range-for loop of `SimpleKV::ldiff` over `list1`, with the sets `diffSet` and
`addedSet` and the vector `diffList` built so far. -/
def ldiffLoop (diffSet : List String) :
    List String → List String → List String → List String
  | [], _, diffList => diffList
  | value :: rest, addedSet, diffList =>
    if value ∉ diffSet then
      if (usetInsert addedSet value).2 then
        ldiffLoop diffSet rest (usetInsert addedSet value).1 (diffList ++ [value])
      else ldiffLoop diffSet rest (usetInsert addedSet value).1 diffList
    else ldiffLoop diffSet rest addedSet diffList

/-- `SimpleKV::ldiff`. -/
def ldiff (s : SimpleKV) (nspace1 key1 nspace2 key2 : String) : Option (List String) :=
  let type1 := type s nspace1 key1
  let type2 := type s nspace2 key2
  if type1 = value_type_info.string ∨ type2 = value_type_info.string then none
  else
    let list1 := (lmembers s nspace1 key1).getD []
    let list2 := (lmembers s nspace2 key2).getD []
    some (ldiffLoop (usetOfRange list2) list1 [] [])

/-- In the words of the specification: go through a list and remove every repeat of an
element that has already been kept (or is in `seen`). -/
def keepFirst : List String → List String → List String
  | _, [] => []
  | seen, x :: rest =>
    if x ∈ seen then keepFirst seen rest else x :: keepFirst (x :: seen) rest

/-- In the words of the specification: the distinct elements of a list in the order of
their first occurrence. -/
def distinctInOrder (l : List String) : List String :=
  keepFirst [] l

/-- In the words of the specification of `intersection`: keep the elements of `A` that
occur in `B`, then remove every repeat of an already-kept element. -/
def interSpec (A B : List String) : List String :=
  distinctInOrder (A.filter (fun x => decide (x ∈ B)))

/-- In the words of the specification of `difference`: the distinct elements of `A`
that do not occur in `B`, in the order of their first occurrence in `A`. -/
def diffSpec (A B : List String) : List String :=
  distinctInOrder (A.filter (fun x => decide (x ∉ B)))

/-- A store holding the two lists of the example in the header, in two namespaces. -/
def exampleStore : SimpleKV :=
  [("a", [("l", ValueType.list ["hello", "hello", "hello   "])]),
   ("b", [("l", ValueType.list ["hello", "howdy", "bye", "bye"]), ("s", ValueType.str "x")])]

/-! ## Well-formedness and reachability -/

/-- The uniqueness guarantee of `std::unordered_map` at both levels: no namespace name
occurs twice in the store and no key name occurs twice within a namespace. -/
def WF (s : SimpleKV) : Prop :=
  (s.map Prod.fst).Nodup ∧ ∀ p ∈ s, (p.2.map Prod.fst).Nodup

/-- The stores that a default-constructed `SimpleKV` object can hold after any sequence
of calls of its mutating member functions (the queries leave `kv_store` untouched).
A call of `rpop` with undefined behaviour has no store after it. -/
inductive Reachable : SimpleKV → Prop where
  | init : Reachable []
  | sset (s : SimpleKV) (n k v : String) : Reachable s → Reachable (sset s n k v)
  | del (s : SimpleKV) (n k : String) : Reachable s → Reachable (del s n k).2
  | lset (s : SimpleKV) (n k : String) (i : Nat) (v : String) :
      Reachable s → Reachable (lset s n k i v).2
  | lpush (s : SimpleKV) (n k v : String) : Reachable s → Reachable (lpush s n k v).2
  | rpush (s : SimpleKV) (n k v : String) : Reachable s → Reachable (rpush s n k v).2
  | lpop (s : SimpleKV) (n k : String) : Reachable s → Reachable (lpop s n k).2
  | rpop (s : SimpleKV) (n k : String) (r : Option String) (s2 : SimpleKV) :
      Reachable s → rpop s n k = some (r, s2) → Reachable s2

/-- A key map of a reachable store: unique key names, at least one key, and no key
holding an empty list. -/
def GoodKM (key_map : KeyMap) : Prop :=
  (key_map.map Prod.fst).Nodup ∧ key_map ≠ [] ∧ ∀ q ∈ key_map, q.2 ≠ ValueType.list []

/-- The invariant of reachable stores: unique names, no namespace without a key, and no
key holding an empty list. -/
def Inv (s : SimpleKV) : Prop :=
  (s.map Prod.fst).Nodup ∧ ∀ p ∈ s, GoodKM p.2

/-- A store with unique namespace names all of whose key maps satisfy `P`. -/
def AllKM (P : KeyMap → Prop) (s : SimpleKV) : Prop :=
  (s.map Prod.fst).Nodup ∧ ∀ p ∈ s, P p.2

/-- Closure of a property of key maps under the writes that the member functions perform
on a key map; the values written are never the empty list. -/
structure KMClosed (P : KeyMap → Prop) : Prop where
  set : ∀ (km : KeyMap) (k : String) (v : ValueType),
    P km → v ≠ ValueType.list [] → P (mset km k v)
  ins : ∀ (km : KeyMap) (k : String) (v : ValueType),
    P km → mfind km k = none → v ≠ ValueType.list [] → P ((k, v) :: km)
  era : ∀ (km : KeyMap) (k : String), P km → merase km k ≠ [] → P (merase km k)
  one : ∀ (k : String) (v : ValueType), v ≠ ValueType.list [] → P [(k, v)]

/-- A store with two namespaces, holding one scalar and two lists; used to exhibit the
theorems at a concrete input. -/
def sampleStore : SimpleKV :=
  [("n", [("k", ValueType.str "x"), ("j", ValueType.list ["y", "z"])]),
   ("m", [("k", ValueType.list ["w"])])]

/-! ## The reading member functions as calls on the object

None of the member functions is declared `const`.  For the set operations the store is
threaded through every call they make, to show what `kv_store` is after the call. -/

/-- `SimpleKV::type` as a call: the result and `kv_store` after it.  The body reaches
`kv_store` through `find` only and has no assignment, insertion or erasure. -/
def type_call (s : SimpleKV) (nspace key : String) : value_type_info × SimpleKV :=
  (type s nspace key, s)

/-- `SimpleKV::lmembers` as a call: the result (a copy of the list) and `kv_store` after
it.  The body iterates `kv_store` by `const auto&` and has no assignment, insertion or
erasure. -/
def lmembers_call (s : SimpleKV) (nspace key : String) : Option (List String) × SimpleKV :=
  (lmembers s nspace key, s)

/-- `SimpleKV::lunion` as a call: the result and `kv_store` after it.  The sets and the
vectors of the body are local copies. -/
def lunion_call (s : SimpleKV) (nspace1 key1 nspace2 key2 : String) :
    Option (List String) × SimpleKV :=
  let type1 := type_call s nspace1 key1
  let type2 := type_call type1.2 nspace2 key2
  if type1.1 = value_type_info.string ∨ type2.1 = value_type_info.string then
    (none, type2.2)
  else
    let list1 := lmembers_call type2.2 nspace1 key1
    let list2 := lmembers_call list1.2 nspace2 key2
    (some (usetInsertRange (usetOfRange (list1.1.getD [])) (list2.1.getD [])), list2.2)

/-- `SimpleKV::linter` as a call: the result and `kv_store` after it.  The two calls of
`type` are evaluated, left to right, only as far as the `||` chain needs them. -/
def linter_call (s : SimpleKV) (nspace1 key1 nspace2 key2 : String) :
    Option (List String) × SimpleKV :=
  let list1 := lmembers_call s nspace1 key1
  let list2 := lmembers_call list1.2 nspace2 key2
  match list1.1, list2.1 with
  | some l1, some l2 =>
    let t1 := type_call list2.2 nspace1 key1
    if t1.1 ≠ value_type_info.list then (none, t1.2)
    else
      let t2 := type_call t1.2 nspace2 key2
      if t2.1 ≠ value_type_info.list then (none, t2.2)
      else (some (linterLoop (usetOfRange l2) l1 [] []), t2.2)
  | _, _ => (none, list2.2)

/-- `SimpleKV::ldiff` as a call: the result and `kv_store` after it. -/
def ldiff_call (s : SimpleKV) (nspace1 key1 nspace2 key2 : String) :
    Option (List String) × SimpleKV :=
  let type1 := type_call s nspace1 key1
  let type2 := type_call type1.2 nspace2 key2
  if type1.1 = value_type_info.string ∨ type2.1 = value_type_info.string then
    (none, type2.2)
  else
    let list1 := lmembers_call type2.2 nspace1 key1
    let list2 := lmembers_call list1.2 nspace2 key2
    (some (ldiffLoop (usetOfRange (list2.1.getD [])) (list1.1.getD []) [] []), list2.2)

/-- The pair `(nspace, key)` reads the same in `s2` as in `s`: same `type`, same `sget`,
same `lmembers`. -/
def SameAt (s s2 : SimpleKV) (nspace key : String) : Prop :=
  type s2 nspace key = type s nspace key ∧
  sget s2 nspace key = sget s nspace key ∧
  lmembers s2 nspace key = lmembers s nspace key

/-! ## Lemmas on the container primitives -/

section Primitives

variable {β : Type}

theorem mfind_eq_none_iff (m : List (String × β)) (k : String) :
    mfind m k = none ↔ k ∉ m.map Prod.fst := by
  induction m with
  | nil => simp [mfind]
  | cons p rest ih =>
    obtain ⟨a, b⟩ := p
    by_cases h : a = k
    · simp [mfind, h]
    · have h2 : ¬ k = a := fun e => h e.symm
      simp [mfind, h, h2, ih]

theorem mfind_some_mem (m : List (String × β)) (k : String) (v : β)
    (h : mfind m k = some v) : (k, v) ∈ m := by
  induction m with
  | nil => simp [mfind] at h
  | cons p rest ih =>
    obtain ⟨a, b⟩ := p
    by_cases hk : a = k
    · simp [mfind, hk] at h
      simp [hk, h]
    · simp [mfind, hk] at h
      exact List.mem_cons_of_mem _ (ih h)

theorem mfind_of_mem (m : List (String × β)) (k : String) (v : β)
    (hn : (m.map Prod.fst).Nodup) (h : (k, v) ∈ m) : mfind m k = some v := by
  induction m with
  | nil => simp at h
  | cons p rest ih =>
    obtain ⟨a, b⟩ := p
    simp only [List.map_cons, List.nodup_cons] at hn
    rcases List.mem_cons.mp h with e | e
    · cases e
      simp [mfind]
    · have hne : a ≠ k := by
        intro e2
        apply hn.1
        rw [e2]
        exact List.mem_map_of_mem Prod.fst e
      simp [mfind, hne, ih hn.2 e]

theorem mfind_mset (m : List (String × β)) (k : String) (v : β) (k2 : String) :
    mfind (mset m k v) k2 = if k2 = k then (mfind m k).map (fun _ => v) else mfind m k2 := by
  induction m with
  | nil => simp [mset, mfind]
  | cons p rest ih =>
    obtain ⟨a, b⟩ := p
    by_cases h : a = k
    · subst h
      by_cases h2 : a = k2
      · subst h2
        simp [mset, mfind]
      · have h3 : ¬ k2 = a := fun e => h2 e.symm
        simp [mset, mfind, h2, h3]
    · by_cases h2 : a = k2
      · subst h2
        simp [mset, mfind, h]
      · simp [mset, mfind, h, h2, ih]

theorem mfind_mset_self (m : List (String × β)) (k : String) (v b : β)
    (h : mfind m k = some b) : mfind (mset m k v) k = some v := by
  simp [mfind_mset, h]

theorem mfind_mset_ne (m : List (String × β)) (k : String) (v : β) (k2 : String)
    (h : k2 ≠ k) : mfind (mset m k v) k2 = mfind m k2 := by
  simp [mfind_mset, h]

theorem map_fst_mset (m : List (String × β)) (k : String) (v : β) :
    (mset m k v).map Prod.fst = m.map Prod.fst := by
  induction m with
  | nil => simp [mset]
  | cons p rest ih =>
    obtain ⟨a, b⟩ := p
    by_cases h : a = k
    · simp [mset, h]
    · simp [mset, h, ih]

theorem mem_mset (m : List (String × β)) (k : String) (v : β) (p : String × β)
    (h : p ∈ mset m k v) : p ∈ m ∨ p = (k, v) := by
  induction m with
  | nil => simp [mset] at h
  | cons q rest ih =>
    obtain ⟨a, b⟩ := q
    by_cases hk : a = k
    · subst hk
      simp only [mset, if_true, List.mem_cons] at h
      rcases h with e | e
      · exact Or.inr e
      · exact Or.inl (List.mem_cons_of_mem _ e)
    · simp only [mset, hk, if_false, List.mem_cons] at h
      rcases h with e | e
      · exact Or.inl (by simp [e])
      · rcases ih e with e2 | e2
        · exact Or.inl (List.mem_cons_of_mem _ e2)
        · exact Or.inr e2

theorem merase_sublist (m : List (String × β)) (k : String) :
    List.Sublist (merase m k) m := by
  induction m with
  | nil => simp [merase]
  | cons p rest ih =>
    obtain ⟨a, b⟩ := p
    by_cases h : a = k
    · simp [merase, h]
    · simp [merase, h, ih]

theorem mem_merase (m : List (String × β)) (k : String) (p : String × β)
    (h : p ∈ merase m k) : p ∈ m :=
  (merase_sublist m k).subset h

theorem nodup_merase (m : List (String × β)) (k : String)
    (h : (m.map Prod.fst).Nodup) : ((merase m k).map Prod.fst).Nodup :=
  List.Nodup.sublist ((merase_sublist m k).map Prod.fst) h

theorem mfind_merase_ne (m : List (String × β)) (k k2 : String) (h : k2 ≠ k) :
    mfind (merase m k) k2 = mfind m k2 := by
  induction m with
  | nil => simp [merase]
  | cons p rest ih =>
    obtain ⟨a, b⟩ := p
    by_cases h1 : a = k
    · subst h1
      have h3 : ¬ a = k2 := fun e => h e.symm
      simp [merase, mfind, h3]
    · by_cases h2 : a = k2
      · simp [merase, mfind, h1, h2]
        simp [← h2, h1, mfind]
      · simp [merase, mfind, h1, h2, ih]

theorem mfind_merase_self (m : List (String × β)) (k : String)
    (hn : (m.map Prod.fst).Nodup) : mfind (merase m k) k = none := by
  induction m with
  | nil => simp [merase, mfind]
  | cons p rest ih =>
    obtain ⟨a, b⟩ := p
    simp only [List.map_cons, List.nodup_cons] at hn
    by_cases h1 : a = k
    · subst h1
      simp only [merase, if_true]
      exact (mfind_eq_none_iff rest a).mpr hn.1
    · simp [merase, mfind, h1, ih hn.2]

theorem mfind_merase (m : List (String × β)) (k k2 : String)
    (hn : (m.map Prod.fst).Nodup) :
    mfind (merase m k) k2 = if k2 = k then none else mfind m k2 := by
  by_cases h : k2 = k
  · subst h
    simp [mfind_merase_self m k2 hn]
  · simp [h, mfind_merase_ne m k k2 h]

theorem merase_eq_nil (m : List (String × β)) (k : String) (b : β)
    (hn : (m.map Prod.fst).Nodup) (hf : mfind m k = some b) (he : merase m k = []) :
    m = [(k, b)] := by
  cases m with
  | nil => simp [mfind] at hf
  | cons p rest =>
    obtain ⟨a, c⟩ := p
    by_cases h1 : a = k
    · subst h1
      simp only [merase, if_true] at he
      simp only [mfind, if_true, Option.some.injEq] at hf
      simp [he, hf]
    · simp [merase, h1] at he

end Primitives

theorem scanKeys_eq_mfind (key_map : KeyMap) (key : String) :
    scanKeys key_map key = mfind key_map key := by
  induction key_map with
  | nil => rfl
  | cons p rest ih =>
    obtain ⟨a, b⟩ := p
    simp [scanKeys, mfind, ih]

theorem scan_eq_none_of_not_mem (s : SimpleKV) (nspace key : String)
    (h : nspace ∉ s.map Prod.fst) : scan s nspace key = none := by
  induction s with
  | nil => rfl
  | cons p rest ih =>
    obtain ⟨a, b⟩ := p
    simp only [List.map_cons, List.mem_cons, not_or] at h
    have h1 : ¬ a = nspace := fun e => h.1 e.symm
    simp [scan, h1, ih h.2]

/-- The loops reach whatever the two `find` calls reach. -/
theorem scan_of_lookup (s : SimpleKV) (nspace key : String) (v : ValueType)
    (h : lookup s nspace key = some v) : scan s nspace key = some v := by
  induction s with
  | nil => simp [lookup, mfind] at h
  | cons p rest ih =>
    obtain ⟨a, b⟩ := p
    by_cases h1 : a = nspace
    · simp only [lookup, mfind, h1, if_true] at h
      simp [scan, h1, scanKeys_eq_mfind, h]
    · have h2 : lookup rest nspace key = some v := by
        simpa [lookup, mfind, h1] using h
      simp [scan, h1, ih h2]

/-- On a store with unique namespace names the loops and the `find` calls agree. -/
theorem scan_eq_lookup (s : SimpleKV) (nspace key : String)
    (hn : (s.map Prod.fst).Nodup) : scan s nspace key = lookup s nspace key := by
  induction s with
  | nil => rfl
  | cons p rest ih =>
    obtain ⟨a, b⟩ := p
    simp only [List.map_cons, List.nodup_cons] at hn
    by_cases h1 : a = nspace
    · subst h1
      simp only [scan, lookup, mfind, if_true, scanKeys_eq_mfind]
      cases hb : mfind b key with
      | some v => rfl
      | none => exact scan_eq_none_of_not_mem rest a key hn.1
    · have h3 : lookup ((a, b) :: rest) nspace key = lookup rest nspace key := by
        simp [lookup, mfind, h1]
      simp [scan, h1, ih hn.2, h3]

/-! ## Preservation of well-formedness and of the invariant -/

theorem WF_iff_AllKM (s : SimpleKV) :
    WF s ↔ AllKM (fun km => (km.map Prod.fst).Nodup) s := Iff.rfl

theorem Inv_iff_AllKM (s : SimpleKV) : Inv s ↔ AllKM GoodKM s := Iff.rfl

theorem Inv.toWF {s : SimpleKV} (h : Inv s) : WF s :=
  ⟨h.1, fun p hp => (h.2 p hp).1⟩

theorem nodupKM_closed : KMClosed (fun km => (km.map Prod.fst).Nodup) where
  set := fun km k v h _ => by rw [map_fst_mset]; exact h
  ins := fun km k v h hf _ => by
    simp only [List.map_cons, List.nodup_cons]
    exact ⟨(mfind_eq_none_iff km k).mp hf, h⟩
  era := fun km k h _ => nodup_merase km k h
  one := fun k v _ => by simp

theorem goodKM_closed : KMClosed GoodKM where
  set := fun km k v h hv => by
    refine ⟨by rw [map_fst_mset]; exact h.1, ?_, ?_⟩
    · intro e
      have e2 := map_fst_mset km k v
      rw [e] at e2
      have : km = [] := by simpa using e2.symm
      exact h.2.1 this
    · intro q hq
      rcases mem_mset km k v q hq with e | e
      · exact h.2.2 q e
      · rw [e]; exact hv
  ins := fun km k v h hf hv => by
    refine ⟨?_, by simp, ?_⟩
    · simp only [List.map_cons, List.nodup_cons]
      exact ⟨(mfind_eq_none_iff km k).mp hf, h.1⟩
    · intro q hq
      rcases List.mem_cons.mp hq with e | e
      · rw [e]; exact hv
      · exact h.2.2 q e
  era := fun km k h hne =>
    ⟨nodup_merase km k h.1, hne, fun q hq => h.2.2 q (mem_merase km k q hq)⟩
  one := fun k v hv => by
    refine ⟨by simp, by simp, ?_⟩
    intro q hq
    have e : q = (k, v) := by simpa using hq
    rw [e]; exact hv

section Preservation

variable {P : KeyMap → Prop}

theorem AllKM_nil : AllKM P [] := by
  simp [AllKM]

theorem AllKM_find {s : SimpleKV} (h : AllKM P s) {n : String} {km : KeyMap}
    (hf : mfind s n = some km) : P km :=
  h.2 (n, km) (mfind_some_mem s n km hf)

theorem AllKM_mset {s : SimpleKV} (h : AllKM P s) (n : String) {km : KeyMap}
    (hk : P km) : AllKM P (mset s n km) := by
  refine ⟨by rw [map_fst_mset]; exact h.1, ?_⟩
  intro p hp
  rcases mem_mset s n km p hp with e | e
  · exact h.2 p e
  · rw [e]; exact hk

theorem AllKM_merase {s : SimpleKV} (h : AllKM P s) (n : String) :
    AllKM P (merase s n) :=
  ⟨nodup_merase s n h.1, fun p hp => h.2 p (mem_merase s n p hp)⟩

theorem AllKM_cons {s : SimpleKV} (h : AllKM P s) {n : String} {km : KeyMap}
    (hf : mfind s n = none) (hk : P km) : AllKM P ((n, km) :: s) := by
  refine ⟨?_, ?_⟩
  · simp only [List.map_cons, List.nodup_cons]
    exact ⟨(mfind_eq_none_iff s n).mp hf, h.1⟩
  · intro p hp
    rcases List.mem_cons.mp hp with e | e
    · rw [e]; exact hk
    · exact h.2 p e

theorem isEmpty_false_ne_nil {α : Type} {l : List α} (h : ¬ l.isEmpty = true) : l ≠ [] := by
  intro e
  apply h
  rw [e]
  rfl

theorem sset_AllKM (hc : KMClosed P) (s : SimpleKV) (n k v : String) (h : AllKM P s) :
    AllKM P (sset s n k v) := by
  cases hf : mfind s n with
  | none =>
    simp only [sset, hf]
    exact AllKM_cons h hf (hc.one k (ValueType.str v) (by simp))
  | some km =>
    have hkm := AllKM_find h hf
    cases hk : mfind km k with
    | none =>
      simp only [sset, hf, hk]
      exact AllKM_mset h n (hc.ins km k (ValueType.str v) hkm hk (by simp))
    | some b =>
      simp only [sset, hf, hk]
      exact AllKM_mset h n (hc.set km k (ValueType.str v) hkm (by simp))

theorem del_AllKM (hc : KMClosed P) (s : SimpleKV) (n k : String) (h : AllKM P s) :
    AllKM P (del s n k).2 := by
  cases hf : mfind s n with
  | none => simp only [del, hf]; exact h
  | some km =>
    have hkm := AllKM_find h hf
    cases hk : mfind km k with
    | none => simp only [del, hf, hk]; exact h
    | some b =>
      by_cases he : (merase km k).isEmpty = true
      · simp only [del, hf, hk, he, if_true]
        exact AllKM_merase h n
      · simp only [del, hf, hk, he]
        exact AllKM_mset h n (hc.era km k hkm (isEmpty_false_ne_nil he))

theorem lpush_AllKM (hc : KMClosed P) (s : SimpleKV) (n k v : String) (h : AllKM P s) :
    AllKM P (lpush s n k v).2 := by
  cases hf : mfind s n with
  | none =>
    simp only [lpush, hf]
    exact AllKM_cons h hf (hc.one k (ValueType.list [v]) (by simp))
  | some km =>
    have hkm := AllKM_find h hf
    cases hk : mfind km k with
    | none =>
      simp only [lpush, hf, hk]
      exact AllKM_mset h n (hc.ins km k (ValueType.list [v]) hkm hk (by simp))
    | some b =>
      cases b with
      | str x => simp only [lpush, hf, hk]; exact h
      | list l =>
        simp only [lpush, hf, hk]
        exact AllKM_mset h n (hc.set km k (ValueType.list (v :: l)) hkm (by simp))

theorem rpush_AllKM (hc : KMClosed P) (s : SimpleKV) (n k v : String) (h : AllKM P s) :
    AllKM P (rpush s n k v).2 := by
  cases hf : mfind s n with
  | none =>
    simp only [rpush, hf]
    exact AllKM_cons h hf (hc.one k (ValueType.list [v]) (by simp))
  | some km =>
    have hkm := AllKM_find h hf
    cases hk : mfind km k with
    | none =>
      simp only [rpush, hf, hk]
      exact AllKM_mset h n (hc.ins km k (ValueType.list [v]) hkm hk (by simp))
    | some b =>
      cases b with
      | str x => simp only [rpush, hf, hk]; exact h
      | list l =>
        simp only [rpush, hf, hk]
        exact AllKM_mset h n (hc.set km k (ValueType.list (l ++ [v])) hkm (by simp))

theorem lpop_AllKM (hc : KMClosed P) (s : SimpleKV) (n k : String) (h : AllKM P s) :
    AllKM P (lpop s n k).2 := by
  cases hf : mfind s n with
  | none => simp only [lpop, hf]; exact h
  | some km =>
    have hkm := AllKM_find h hf
    cases hk : mfind km k with
    | none => simp only [lpop, hf, hk]; exact h
    | some b =>
      cases b with
      | str x => simp only [lpop, hf, hk]; exact h
      | list l =>
        cases l with
        | nil => simp only [lpop, hf, hk]; exact h
        | cons a rest =>
          cases rest with
          | nil =>
            by_cases he : (merase km k).isEmpty = true
            · simp only [lpop, hf, hk, List.isEmpty_nil, he, if_true]
              exact AllKM_merase h n
            · simp only [lpop, hf, hk, List.isEmpty_nil, he, if_true]
              exact AllKM_mset h n (hc.era km k hkm (isEmpty_false_ne_nil he))
          | cons b rest2 =>
            simp only [lpop, hf, hk, List.isEmpty_cons]
            exact AllKM_mset h n (hc.set km k (ValueType.list (b :: rest2)) hkm (by simp))

theorem mset_ne_nil {β : Type} (m : List (String × β)) (k : String) (v b : β)
    (h : mfind m k = some b) : mset m k v ≠ [] := by
  intro e
  have e2 := map_fst_mset m k v
  rw [e] at e2
  have e3 : m = [] := by simpa using e2.symm
  rw [e3] at h
  simp [mfind] at h

theorem rpop_AllKM (hc : KMClosed P) (s : SimpleKV) (n k : String) (r : Option String)
    (s2 : SimpleKV) (hr : rpop s n k = some (r, s2)) (h : AllKM P s) : AllKM P s2 := by
  cases hf : mfind s n with
  | none =>
    simp only [rpop, hf, Option.some.injEq, Prod.mk.injEq] at hr
    rw [← hr.2]; exact h
  | some km =>
    have hkm := AllKM_find h hf
    cases hk : mfind km k with
    | none =>
      simp only [rpop, hf, hk, Option.some.injEq, Prod.mk.injEq] at hr
      rw [← hr.2]; exact h
    | some b =>
      cases b with
      | str x =>
        simp only [rpop, hf, hk, Option.some.injEq, Prod.mk.injEq] at hr
        rw [← hr.2]; exact h
      | list l =>
        cases hl : l.getLast? with
        | none =>
          simp only [rpop, hf, hk, hl, Option.some.injEq, Prod.mk.injEq] at hr
          rw [← hr.2]; exact h
        | some pop =>
          simp only [rpop, hf, hk, hl] at hr
          by_cases hd : l.dropLast.isEmpty = true
          · simp only [hd, if_true] at hr
            by_cases he : (merase km k).isEmpty = true
            · rw [if_pos he] at hr
              by_cases hs : (merase s n).isEmpty = true
              · rw [if_pos hs] at hr
                cases hr
              · rw [if_neg hs] at hr
                simp only [Option.some.injEq, Prod.mk.injEq] at hr
                rw [← hr.2]; exact AllKM_merase h n
            · rw [if_neg he] at hr
              simp only [Option.some.injEq, Prod.mk.injEq] at hr
              rw [← hr.2]
              exact AllKM_mset h n (hc.era km k hkm (isEmpty_false_ne_nil he))
          · have hne := mset_ne_nil km k (ValueType.list l.dropLast) _ hk
            have he : ¬ (mset km k (ValueType.list l.dropLast)).isEmpty = true := by
              intro e
              exact hne (List.isEmpty_iff.mp e)
            rw [if_neg hd, if_neg he] at hr
            simp only [Option.some.injEq, Prod.mk.injEq] at hr
            rw [← hr.2]
            refine AllKM_mset h n (hc.set km k (ValueType.list l.dropLast) hkm ?_)
            intro e
            apply hd
            simp only [ValueType.list.injEq] at e
            rw [e]; rfl

/-- The inner loop of `lset` in terms of `find`. -/
theorem lsetKeys_eq (km : KeyMap) (key : String) (i : Nat) (v : String) :
    lsetKeys km key i v =
      match mfind km key with
      | none => none
      | some (ValueType.list l) =>
        if i < l.length then some (true, mset km key (ValueType.list (l.set i v)))
        else some (false, km)
      | some (ValueType.str _) => some (false, km) := by
  induction km with
  | nil => rfl
  | cons p rest ih =>
    obtain ⟨a, b⟩ := p
    by_cases h : a = key
    · subst h
      cases b with
      | str x => simp [lsetKeys, mfind]
      | list l => simp [lsetKeys, mfind, mset]
    · simp only [lsetKeys, h, if_false, mfind, ih, mset]
      cases hk : mfind rest key with
      | none => rfl
      | some b =>
        cases b with
        | str x => rfl
        | list l =>
          by_cases hi : i < l.length
          · simp [hi]
          · simp [hi]

theorem lsetKeys_closed (hc : KMClosed P) (km : KeyMap) (key : String) (i : Nat)
    (v : String) (r : Bool) (km2 : KeyMap) (h : P km)
    (he : lsetKeys km key i v = some (r, km2)) : P km2 := by
  rw [lsetKeys_eq] at he
  cases hk : mfind km key with
  | none => simp [hk] at he
  | some b =>
    cases b with
    | str x =>
      simp only [hk, Option.some.injEq, Prod.mk.injEq] at he
      rw [← he.2]; exact h
    | list l =>
      by_cases hi : i < l.length
      · simp only [hk, hi, if_true, Option.some.injEq, Prod.mk.injEq] at he
        rw [← he.2]
        refine hc.set km key _ h ?_
        intro e
        simp only [ValueType.list.injEq] at e
        have e2 : (l.set i v).length = 0 := by rw [e]; rfl
        rw [List.length_set] at e2
        omega
      · simp only [hk, hi, if_false, Option.some.injEq, Prod.mk.injEq] at he
        rw [← he.2]; exact h

theorem lset_map_fst (s : SimpleKV) (n k : String) (i : Nat) (v : String) :
    (lset s n k i v).2.map Prod.fst = s.map Prod.fst := by
  induction s with
  | nil => rfl
  | cons p rest ih =>
    obtain ⟨a, km⟩ := p
    by_cases h : a = n
    · cases hl : lsetKeys km k i v with
      | none => simp [lset, h, hl, ih]
      | some q => simp [lset, h, hl]
    · simp [lset, h, ih]

theorem lset_mem (hc : KMClosed P) (s : SimpleKV) (n k : String) (i : Nat) (v : String)
    (h : ∀ p ∈ s, P p.2) : ∀ p ∈ (lset s n k i v).2, P p.2 := by
  induction s with
  | nil => intro p hp; simp [lset] at hp
  | cons q rest ih =>
    obtain ⟨a, km⟩ := q
    have hrest : ∀ p ∈ rest, P p.2 := fun p hp => h p (List.mem_cons_of_mem _ hp)
    have hkm : P km := h (a, km) (List.mem_cons_self _ _)
    intro p hp
    by_cases hn : a = n
    · cases hl : lsetKeys km k i v with
      | none =>
        simp only [lset, hn, if_true, hl, List.mem_cons] at hp
        rcases hp with e | e
        · rw [e]; exact hkm
        · exact ih hrest p e
      | some q2 =>
        obtain ⟨r, km2⟩ := q2
        simp only [lset, hn, if_true, hl, List.mem_cons] at hp
        rcases hp with e | e
        · rw [e]; exact lsetKeys_closed hc km k i v r km2 hkm hl
        · exact hrest p e
    · simp only [lset, hn, if_false, List.mem_cons] at hp
      rcases hp with e | e
      · rw [e]; exact hkm
      · exact ih hrest p e

theorem lset_AllKM (hc : KMClosed P) (s : SimpleKV) (n k : String) (i : Nat) (v : String)
    (h : AllKM P s) : AllKM P (lset s n k i v).2 :=
  ⟨by rw [lset_map_fst]; exact h.1, lset_mem hc s n k i v h.2⟩

end Preservation

/-- Every reachable store satisfies the invariant. -/
theorem Reachable.inv {s : SimpleKV} (h : Reachable s) : Inv s := by
  induction h with
  | init => exact AllKM_nil
  | sset s n k v _ ih => exact sset_AllKM goodKM_closed s n k v ih
  | del s n k _ ih => exact del_AllKM goodKM_closed s n k ih
  | lset s n k i v _ ih => exact lset_AllKM goodKM_closed s n k i v ih
  | lpush s n k v _ ih => exact lpush_AllKM goodKM_closed s n k v ih
  | rpush s n k v _ ih => exact rpush_AllKM goodKM_closed s n k v ih
  | lpop s n k _ ih => exact lpop_AllKM goodKM_closed s n k ih
  | rpop s n k r s2 _ hr ih => exact rpop_AllKM goodKM_closed s n k r s2 hr ih

/-! ## The queries in terms of `lookup` -/

theorem type_eq_lookup (s : SimpleKV) (n k : String) :
    type s n k =
      match lookup s n k with
      | none => value_type_info.none
      | some (ValueType.list _) => value_type_info.list
      | some (ValueType.str _) => value_type_info.string := by
  cases hf : mfind s n with
  | none => simp [type, lookup, hf]
  | some km => simp only [type, lookup, hf]

theorem key_exists_eq_lookup (s : SimpleKV) (n k : String) (hn : (s.map Prod.fst).Nodup) :
    key_exists s n k = (lookup s n k).isSome := by
  simp only [key_exists, scan_eq_lookup s n k hn]
  cases lookup s n k <;> rfl

theorem sget_eq_lookup (s : SimpleKV) (n k : String) (hn : (s.map Prod.fst).Nodup) :
    sget s n k =
      match lookup s n k with
      | some (ValueType.str x) => some x
      | some (ValueType.list _) => none
      | none => none := by
  simp only [sget, scan_eq_lookup s n k hn]

theorem lmembers_eq_lookup (s : SimpleKV) (n k : String) (hn : (s.map Prod.fst).Nodup) :
    lmembers s n k =
      match lookup s n k with
      | some (ValueType.list l) => some l
      | some (ValueType.str _) => none
      | none => none := by
  simp only [lmembers, scan_eq_lookup s n k hn]

theorem llen_eq_lookup (s : SimpleKV) (n k : String) (hn : (s.map Prod.fst).Nodup) :
    llen s n k =
      match lookup s n k with
      | some (ValueType.list l) => (l.length : Int)
      | some (ValueType.str _) => -1
      | none => -1 := by
  simp only [llen, scan_eq_lookup s n k hn]

theorem ns_exists_of_lookup (s : SimpleKV) (n k : String) (v : ValueType)
    (h : lookup s n k = some v) : ns_exists s n = true := by
  cases hf : mfind s n with
  | none => simp [lookup, hf] at h
  | some km => simp [ns_exists, hf]

/-! ## The effect of the writes on `lookup` -/

theorem lookup_cons (s : SimpleKV) (n : String) (km : KeyMap) (n2 k2 : String) :
    lookup ((n, km) :: s) n2 k2 = if n = n2 then mfind km k2 else lookup s n2 k2 := by
  by_cases h : n = n2
  · simp [lookup, mfind, h]
  · simp [lookup, mfind, h]

theorem lookup_mset (s : SimpleKV) (n : String) (km km0 : KeyMap) (n2 k2 : String)
    (hf : mfind s n = some km0) :
    lookup (mset s n km) n2 k2 = if n2 = n then mfind km k2 else lookup s n2 k2 := by
  by_cases h : n2 = n
  · simp [lookup, mfind_mset, h, hf]
  · simp [lookup, mfind_mset, h]

theorem lookup_merase (s : SimpleKV) (n n2 k2 : String) (hn : (s.map Prod.fst).Nodup) :
    lookup (merase s n) n2 k2 = if n2 = n then none else lookup s n2 k2 := by
  by_cases h : n2 = n
  · subst h
    simp [lookup, mfind_merase_self s n2 hn]
  · simp [lookup, mfind_merase_ne s n n2 h, h]

theorem lookup_sset_self (s : SimpleKV) (n k v : String) :
    lookup (sset s n k v) n k = some (ValueType.str v) := by
  cases hf : mfind s n with
  | none => simp [sset, hf, lookup_cons, mfind]
  | some km =>
    cases hk : mfind km k with
    | none =>
      simp only [sset, hf, hk]
      rw [lookup_mset s n _ km n k hf]
      simp [mfind]
    | some b =>
      simp only [sset, hf, hk]
      rw [lookup_mset s n _ km n k hf]
      simp [mfind_mset, hk]

theorem lookup_lpush_self (s : SimpleKV) (n k v : String) :
    lookup (lpush s n k v).2 n k =
      match lookup s n k with
      | none => some (ValueType.list [v])
      | some (ValueType.list l) => some (ValueType.list (v :: l))
      | some (ValueType.str x) => some (ValueType.str x) := by
  cases hf : mfind s n with
  | none => simp [lpush, hf, lookup_cons, mfind, lookup]
  | some km =>
    cases hk : mfind km k with
    | none =>
      simp only [lpush, hf, hk]
      rw [lookup_mset s n _ km n k hf]
      simp [lookup, hf, hk, mfind]
    | some b =>
      cases b with
      | str x => simp [lpush, hf, hk, lookup]
      | list l =>
        simp only [lpush, hf, hk]
        rw [lookup_mset s n _ km n k hf]
        simp [lookup, hf, hk, mfind_mset]

theorem lookup_rpush_self (s : SimpleKV) (n k v : String) :
    lookup (rpush s n k v).2 n k =
      match lookup s n k with
      | none => some (ValueType.list [v])
      | some (ValueType.list l) => some (ValueType.list (l ++ [v]))
      | some (ValueType.str x) => some (ValueType.str x) := by
  cases hf : mfind s n with
  | none => simp [rpush, hf, lookup_cons, mfind, lookup]
  | some km =>
    cases hk : mfind km k with
    | none =>
      simp only [rpush, hf, hk]
      rw [lookup_mset s n _ km n k hf]
      simp [lookup, hf, hk, mfind]
    | some b =>
      cases b with
      | str x => simp [rpush, hf, hk, lookup]
      | list l =>
        simp only [rpush, hf, hk]
        rw [lookup_mset s n _ km n k hf]
        simp [lookup, hf, hk, mfind_mset]

theorem push_result (s : SimpleKV) (n k v : String) :
    (lpush s n k v).1 = (rpush s n k v).1 ∧
    ((lpush s n k v).1 = true ↔ ∀ x, lookup s n k ≠ some (ValueType.str x)) := by
  cases hf : mfind s n with
  | none => simp [lpush, rpush, hf, lookup]
  | some km =>
    cases hk : mfind km k with
    | none => simp [lpush, rpush, hf, hk, lookup]
    | some b =>
      cases b with
      | str x => simp [lpush, rpush, hf, hk, lookup]
      | list l => simp [lpush, rpush, hf, hk, lookup]

theorem lpop_result (s : SimpleKV) (n k : String) :
    (lpop s n k).1 =
      match lookup s n k with
      | some (ValueType.list (a :: _)) => some a
      | some (ValueType.list []) => none
      | some (ValueType.str _) => none
      | none => none := by
  cases hf : mfind s n with
  | none => simp [lpop, hf, lookup]
  | some km =>
    cases hk : mfind km k with
    | none => simp [lpop, hf, hk, lookup]
    | some b =>
      cases b with
      | str x => simp [lpop, hf, hk, lookup]
      | list l =>
        cases l with
        | nil => simp [lpop, hf, hk, lookup]
        | cons a rest =>
          simp only [lpop, hf, hk, lookup]
          split_ifs <;> rfl

theorem lookup_lpop_self (s : SimpleKV) (n k : String) (hw : WF s) :
    lookup (lpop s n k).2 n k =
      match lookup s n k with
      | some (ValueType.list (_ :: b :: rest)) => some (ValueType.list (b :: rest))
      | some (ValueType.list [_]) => none
      | some (ValueType.list []) => some (ValueType.list [])
      | some (ValueType.str x) => some (ValueType.str x)
      | none => none := by
  cases hf : mfind s n with
  | none => simp [lpop, hf, lookup]
  | some km =>
    have hkm : (km.map Prod.fst).Nodup := hw.2 (n, km) (mfind_some_mem s n km hf)
    cases hk : mfind km k with
    | none => simp [lpop, hf, hk, lookup]
    | some b =>
      cases b with
      | str x => simp [lpop, hf, hk, lookup]
      | list l =>
        cases l with
        | nil => simp [lpop, hf, hk, lookup]
        | cons a rest =>
          cases rest with
          | nil =>
            by_cases he : (merase km k).isEmpty = true
            · simp only [lpop, hf, hk, List.isEmpty_nil, he, if_true]
              rw [lookup_merase s n n k hw.1]
              simp [lookup, hf, hk]
            · simp only [lpop, hf, hk, List.isEmpty_nil, if_true]
              rw [if_neg he, lookup_mset s n _ km n k hf]
              simp [lookup, hf, hk, mfind_merase_self km k hkm]
          | cons b rest2 =>
            simp only [lpop, hf, hk, List.isEmpty_cons]
            rw [if_neg (by simp), lookup_mset s n _ km n k hf]
            simp [mfind_mset, lookup, hf, hk]

theorem lookup_some_iff (s : SimpleKV) (n k : String) (v : ValueType) :
    lookup s n k = some v ↔ ∃ km, mfind s n = some km ∧ mfind km k = some v := by
  cases hf : mfind s n with
  | none => simp [lookup, hf]
  | some km => simp [lookup, hf]

theorem mset_mset {β : Type} (m : List (String × β)) (k : String) (a b : β) :
    mset (mset m k a) k b = mset m k b := by
  induction m with
  | nil => rfl
  | cons p rest ih =>
    obtain ⟨x, y⟩ := p
    by_cases h : x = k
    · simp [mset, h]
    · simp [mset, h, ih]

theorem mset_self {β : Type} (m : List (String × β)) (k : String) (b : β)
    (h : mfind m k = some b) : mset m k b = m := by
  induction m with
  | nil => rfl
  | cons p rest ih =>
    obtain ⟨x, y⟩ := p
    by_cases hx : x = k
    · simp only [mfind, hx, if_true, Option.some.injEq] at h
      simp [mset, hx, h]
    · simp only [mfind, hx, if_false] at h
      simp [mset, hx, ih h]

theorem del_result (s : SimpleKV) (n k : String) :
    (del s n k).1 = (lookup s n k).isSome := by
  cases hf : mfind s n with
  | none => simp [del, hf, lookup]
  | some km =>
    cases hk : mfind km k with
    | none => simp [del, hf, hk, lookup]
    | some b =>
      simp only [del, hf, hk, lookup]
      split_ifs <;> rfl

theorem del_unchanged (s : SimpleKV) (n k : String) (h : (del s n k).1 = false) :
    (del s n k).2 = s := by
  cases hf : mfind s n with
  | none => simp [del, hf]
  | some km =>
    cases hk : mfind km k with
    | none => simp [del, hf, hk]
    | some b =>
      rw [del_result] at h
      simp [lookup, hf, hk] at h

theorem lookup_del_self (s : SimpleKV) (n k : String) (hw : WF s) :
    lookup (del s n k).2 n k = none := by
  cases hf : mfind s n with
  | none => simp [del, hf, lookup]
  | some km =>
    have hkm : (km.map Prod.fst).Nodup := hw.2 (n, km) (mfind_some_mem s n km hf)
    cases hk : mfind km k with
    | none => simp [del, hf, hk, lookup]
    | some b =>
      by_cases he : (merase km k).isEmpty = true
      · simp only [del, hf, hk, he, if_true]
        rw [lookup_merase s n n k hw.1]
        simp
      · simp only [del, hf, hk]
        rw [if_neg he, lookup_mset s n _ km n k hf]
        simp [mfind_merase_self km k hkm]

/-- The store that `lpush` leaves is taken back to the store before it by `lpop`,
provided no namespace is empty and no list is empty, as in every reachable store. -/
theorem lpop_lpush (s : SimpleKV) (n k v : String) (hi : Inv s)
    (ht : ∀ x, lookup s n k ≠ some (ValueType.str x)) :
    lpop (lpush s n k v).2 n k = (some v, s) := by
  cases hf : mfind s n with
  | none => simp [lpush, hf, lpop, mfind, merase]
  | some km =>
    have hg : GoodKM km := hi.2 (n, km) (mfind_some_mem s n km hf)
    cases hk : mfind km k with
    | none =>
      have h1 : mfind (mset s n ((k, ValueType.list [v]) :: km)) n
          = some ((k, ValueType.list [v]) :: km) := mfind_mset_self s n _ km hf
      have h2 : ¬ km.isEmpty = true := fun e => hg.2.1 (List.isEmpty_iff.mp e)
      simp only [lpush, hf, hk, lpop, h1, mfind, if_true, List.isEmpty_nil, merase]
      rw [if_neg h2, mset_mset, mset_self s n km hf]
    | some b =>
      cases b with
      | str x => exact absurd (by simp [lookup, hf, hk]) (ht x)
      | list l =>
        cases l with
        | nil => exact absurd rfl (hg.2.2 (k, ValueType.list []) (mfind_some_mem km k _ hk))
        | cons a rest =>
          have h1 : mfind (mset s n (mset km k (ValueType.list (v :: a :: rest)))) n
              = some (mset km k (ValueType.list (v :: a :: rest))) :=
            mfind_mset_self s n _ km hf
          have h2 : mfind (mset km k (ValueType.list (v :: a :: rest))) k
              = some (ValueType.list (v :: a :: rest)) := mfind_mset_self km k _ _ hk
          simp only [lpush, hf, hk, lpop, h1, h2, List.isEmpty_cons]
          rw [if_neg (by simp), mset_mset, mset_mset, mset_self km k _ hk, mset_self s n km hf]

theorem lpop_unchanged (s : SimpleKV) (n k : String)
    (h : ∀ a l, lookup s n k ≠ some (ValueType.list (a :: l))) :
    lpop s n k = (none, s) := by
  cases hf : mfind s n with
  | none => simp [lpop, hf]
  | some km =>
    cases hk : mfind km k with
    | none => simp [lpop, hf, hk]
    | some b =>
      cases b with
      | str x => simp [lpop, hf, hk]
      | list l =>
        cases l with
        | nil => simp [lpop, hf, hk]
        | cons a rest => exact absurd (by simp [lookup, hf, hk]) (h a rest)

theorem rpop_unchanged (s : SimpleKV) (n k : String)
    (h : ∀ a l, lookup s n k ≠ some (ValueType.list (a :: l))) :
    rpop s n k = some (none, s) := by
  cases hf : mfind s n with
  | none => simp [rpop, hf]
  | some km =>
    cases hk : mfind km k with
    | none => simp [rpop, hf, hk]
    | some b =>
      cases b with
      | str x => simp [rpop, hf, hk]
      | list l =>
        cases l with
        | nil => simp [rpop, hf, hk]
        | cons a rest => exact absurd (by simp [lookup, hf, hk]) (h a rest)

/-- What a call of `rpop` on a non-empty list returns and leaves under the key, whenever
the call has defined behaviour. -/
theorem rpop_defined (s : SimpleKV) (n k : String) (hw : WF s) (l : List String)
    (hl : lookup s n k = some (ValueType.list l)) (hne : l ≠ [])
    (r : Option String) (s2 : SimpleKV) (hr : rpop s n k = some (r, s2)) :
    r = l.getLast? ∧
    lookup s2 n k = if l.dropLast = [] then none else some (ValueType.list l.dropLast) := by
  obtain ⟨km, hf, hk⟩ := (lookup_some_iff s n k _).mp hl
  have hkm : (km.map Prod.fst).Nodup := hw.2 (n, km) (mfind_some_mem s n km hf)
  cases hg : l.getLast? with
  | none => exact absurd (List.getLast?_eq_none_iff.mp hg) hne
  | some pop =>
    simp only [rpop, hf, hk, hg] at hr
    by_cases hd : l.dropLast.isEmpty = true
    · have hd2 : l.dropLast = [] := List.isEmpty_iff.mp hd
      simp only [hd, if_true] at hr
      by_cases he : (merase km k).isEmpty = true
      · rw [if_pos he] at hr
        by_cases hs : (merase s n).isEmpty = true
        · rw [if_pos hs] at hr
          cases hr
        · rw [if_neg hs] at hr
          simp only [Option.some.injEq, Prod.mk.injEq] at hr
          rw [← hr.1, ← hr.2, lookup_merase s n n k hw.1]
          simp [hd2]
      · rw [if_neg he] at hr
        simp only [Option.some.injEq, Prod.mk.injEq] at hr
        rw [← hr.1, ← hr.2, lookup_mset s n _ km n k hf]
        simp [hd2, mfind_merase_self km k hkm]
    · have hd2 : l.dropLast ≠ [] := fun e => hd (List.isEmpty_iff.mpr e)
      have hne2 := mset_ne_nil km k (ValueType.list l.dropLast) _ hk
      have he : ¬ (mset km k (ValueType.list l.dropLast)).isEmpty = true := by
        intro e
        exact hne2 (List.isEmpty_iff.mp e)
      rw [if_neg hd, if_neg he] at hr
      simp only [Option.some.injEq, Prod.mk.injEq] at hr
      rw [← hr.1, ← hr.2, lookup_mset s n _ km n k hf]
      simp [hd2, mfind_mset, hk]

/-- The calls of `rpop` with undefined behaviour are exactly those that pop the only
element of the only key of the only namespace of the store. -/
theorem rpop_undefined_iff (s : SimpleKV) (n k : String) (hw : WF s) :
    rpop s n k = none ↔ ∃ a, s = [(n, [(k, ValueType.list [a])])] := by
  constructor
  · intro hr
    cases hf : mfind s n with
    | none => simp [rpop, hf] at hr
    | some km =>
      have hkm : (km.map Prod.fst).Nodup := hw.2 (n, km) (mfind_some_mem s n km hf)
      cases hk : mfind km k with
      | none => simp [rpop, hf, hk] at hr
      | some b =>
        cases b with
        | str x => simp [rpop, hf, hk] at hr
        | list l =>
          cases hg : l.getLast? with
          | none => simp [rpop, hf, hk, hg] at hr
          | some pop =>
            simp only [rpop, hf, hk, hg] at hr
            by_cases hd : l.dropLast.isEmpty = true
            · simp only [hd, if_true] at hr
              by_cases he : (merase km k).isEmpty = true
              · rw [if_pos he] at hr
                by_cases hs : (merase s n).isEmpty = true
                · have e1 := merase_eq_nil km k _ hkm hk (List.isEmpty_iff.mp he)
                  have e2 := merase_eq_nil s n _ hw.1 hf (List.isEmpty_iff.mp hs)
                  have e3 : l = [pop] := by
                    have h4 : l.dropLast ++ [pop] = l :=
                      List.dropLast_append_getLast? pop (by rw [hg]; rfl)
                    rw [List.isEmpty_iff.mp hd] at h4
                    simpa using h4.symm
                  exact ⟨pop, by rw [e2, e1, e3]⟩
                · rw [if_neg hs] at hr
                  cases hr
              · rw [if_neg he] at hr
                cases hr
            · have hne2 := mset_ne_nil km k (ValueType.list l.dropLast) _ hk
              have he : ¬ (mset km k (ValueType.list l.dropLast)).isEmpty = true := by
                intro e
                exact hne2 (List.isEmpty_iff.mp e)
              rw [if_neg hd, if_neg he] at hr
              cases hr
  · rintro ⟨a, rfl⟩
    simp [rpop, mfind, merase]

theorem keys_of_mem (s : SimpleKV) (n : String) (km : KeyMap) (h : (n, km) ∈ s) :
    ∀ k ∈ km.map Prod.fst, k ∈ keys s n := by
  induction s with
  | nil => simp at h
  | cons p rest ih =>
    obtain ⟨a, b⟩ := p
    intro k hk
    rcases List.mem_cons.mp h with e | e
    · cases e
      simp only [keys, if_true, List.mem_append]
      exact Or.inl hk
    · by_cases ha : a = n
      · simp only [keys, ha, if_true, List.mem_append]
        exact Or.inr (ih e k hk)
      · simp only [keys, ha, if_false]
        exact ih e k hk

theorem lookup_ne_list_cons (s : SimpleKV) (hw : WF s) (n k : String)
    (h : type s n k ≠ value_type_info.list ∨ lmembers s n k = some []) :
    ∀ a l, lookup s n k ≠ some (ValueType.list (a :: l)) := by
  intro a l hl
  rcases h with h | h
  · apply h
    rw [type_eq_lookup, hl]
  · rw [lmembers_eq_lookup s n k hw.1, hl] at h
    simp at h

theorem lookup_ne_str (s : SimpleKV) (n k : String)
    (h : type s n k ≠ value_type_info.string) :
    ∀ x, lookup s n k ≠ some (ValueType.str x) := by
  intro x hx
  apply h
  rw [type_eq_lookup, hx]

theorem lookup_of_lmembers (s : SimpleKV) (hw : WF s) (n k : String) (l : List String)
    (h : lmembers s n k = some l) : lookup s n k = some (ValueType.list l) := by
  rw [lmembers_eq_lookup s n k hw.1] at h
  cases hl : lookup s n k with
  | none => simp [hl] at h
  | some b =>
    cases b with
    | str x => simp [hl] at h
    | list l2 =>
      simp only [hl, Option.some.injEq] at h
      rw [h]

theorem keys_eq_of_find (s : SimpleKV) (n : String) (km : KeyMap)
    (hn : (s.map Prod.fst).Nodup) (hf : mfind s n = some km) :
    keys s n = km.map Prod.fst := by
  induction s with
  | nil => simp [mfind] at hf
  | cons p rest ih =>
    obtain ⟨a, b⟩ := p
    simp only [List.map_cons, List.nodup_cons] at hn
    by_cases ha : a = n
    · subst ha
      simp only [mfind, if_true, Option.some.injEq] at hf
      subst hf
      have hk : keys rest a = [] := by
        have hno := hn.1
        clear ih hn
        induction rest with
        | nil => rfl
        | cons q rest2 ih2 =>
          obtain ⟨c, d⟩ := q
          simp only [List.map_cons, List.mem_cons, not_or] at hno
          have hc : ¬ c = a := fun e => hno.1 e.symm
          simp [keys, hc, ih2 hno.2]
      simp [keys, hk]
    · simp only [mfind, ha, if_false] at hf
      simp [keys, ha, ih hn.2 hf]

theorem keys_eq_nil_of_find (s : SimpleKV) (n : String) (hf : mfind s n = none) :
    keys s n = [] := by
  induction s with
  | nil => rfl
  | cons p rest ih =>
    obtain ⟨a, b⟩ := p
    by_cases ha : a = n
    · simp [mfind, ha] at hf
    · simp only [mfind, ha, if_false] at hf
      simp [keys, ha, ih hf]

/-- What holds of the pops on a non-empty list: `lpop` returns the first element, leaves
the rest in order when there is a rest and removes the key otherwise. -/
theorem lpop_contract (s : SimpleKV) (hw : WF s) (N K a : String) (rest : List String)
    (h : lmembers s N K = some (a :: rest)) :
    (lpop s N K).1 = some a ∧
    (rest ≠ [] → lmembers (lpop s N K).2 N K = some rest) ∧
    (rest = [] → type (lpop s N K).2 N K = value_type_info.none) := by
  have hl := lookup_of_lmembers s hw N K _ h
  have h1 := lpop_result s N K
  have h2 := lookup_lpop_self s N K hw
  rw [hl] at h1 h2
  refine ⟨h1, ?_, ?_⟩
  · intro hne
    cases rest with
    | nil => exact absurd rfl hne
    | cons b rest2 =>
      simp only at h2
      simp only [lmembers, scan_of_lookup _ N K _ h2]
  · intro he
    subst he
    simp only at h2
    rw [type_eq_lookup, h2]

/-- What holds of `rpop` on a non-empty list whenever the call has defined behaviour: it
returns the last element, leaves the others in order when there are others and removes
the key otherwise. -/
theorem rpop_contract (s : SimpleKV) (hw : WF s) (N K : String) (L : List String)
    (h : lmembers s N K = some L) (hne : L ≠ []) (r : Option String) (s2 : SimpleKV)
    (hr : rpop s N K = some (r, s2)) :
    r = L.getLast? ∧
    (2 ≤ L.length → lmembers s2 N K = some L.dropLast) ∧
    (L.length = 1 → type s2 N K = value_type_info.none) := by
  have hl := lookup_of_lmembers s hw N K _ h
  obtain ⟨h1, h2⟩ := rpop_defined s N K hw L hl hne r s2 hr
  refine ⟨h1, ?_, ?_⟩
  · intro h3
    have hd : L.dropLast ≠ [] := by
      intro e
      have e2 : L.dropLast.length = 0 := by rw [e]; rfl
      rw [List.length_dropLast] at e2
      omega
    rw [if_neg hd] at h2
    simp only [lmembers, scan_of_lookup _ N K _ h2]
  · intro h3
    have hd : L.dropLast = [] := by
      apply List.eq_nil_of_length_eq_zero
      rw [List.length_dropLast]
      omega
    rw [if_pos hd] at h2
    rw [type_eq_lookup, h2]

/-- The cascade where it holds: when `K` is the only key of `N`, the namespace is gone
after `del`, after `lpop` on a one-element list, and after `rpop` on a one-element list
whenever that call has defined behaviour. -/
theorem namespace_cascade (s : SimpleKV) (hw : WF s) (N K : String)
    (hk : keys s N = [K]) :
    (ns_exists (del s N K).2 N = false ∧ N ∉ namespaces (del s N K).2) ∧
    (∀ a, lmembers s N K = some [a] →
      ns_exists (lpop s N K).2 N = false ∧ N ∉ namespaces (lpop s N K).2) ∧
    (∀ a r s2, lmembers s N K = some [a] → rpop s N K = some (r, s2) →
      ns_exists s2 N = false ∧ N ∉ namespaces s2) := by
  cases hf : mfind s N with
  | none =>
    rw [keys_eq_nil_of_find s N hf] at hk
    cases hk
  | some km =>
    rw [keys_eq_of_find s N km hw.1 hf] at hk
    have hgone : mfind (merase s N) N = none := mfind_merase_self s N hw.1
    have hres : ns_exists (merase s N) N = false ∧ N ∉ namespaces (merase s N) :=
      ⟨by simp [ns_exists, hgone], (mfind_eq_none_iff _ N).mp hgone⟩
    cases km with
    | nil => simp at hk
    | cons q rest =>
      obtain ⟨k1, v⟩ := q
      simp only [List.map_cons, List.cons.injEq, List.map_eq_nil_iff] at hk
      obtain ⟨e1, e2⟩ := hk
      subst e1 e2
      refine ⟨?_, ?_, ?_⟩
      · simpa [del, hf, mfind, merase] using hres
      · intro a ha
        have hl := lookup_of_lmembers s hw N k1 _ ha
        simp only [lookup, hf, mfind, if_true, Option.some.injEq] at hl
        subst hl
        simpa [lpop, hf, mfind, merase] using hres
      · intro a r s2 ha hr
        have hl := lookup_of_lmembers s hw N k1 _ ha
        simp only [lookup, hf, mfind, if_true, Option.some.injEq] at hl
        subst hl
        simp only [rpop, hf, mfind, if_true, List.getLast?_singleton, List.dropLast_single,
          List.isEmpty_nil, merase] at hr
        by_cases hs : (merase s N).isEmpty = true
        · rw [if_pos hs] at hr
          cases hr
        · rw [if_neg hs] at hr
          simp only [Option.some.injEq, Prod.mk.injEq] at hr
          rw [← hr.2]
          exact hres

/-! ## `lset`, `llen` and `lindex` in terms of `find` -/

theorem lset_not_mem (s : SimpleKV) (n k : String) (i : Nat) (v : String)
    (h : n ∉ s.map Prod.fst) : lset s n k i v = (false, s) := by
  induction s with
  | nil => rfl
  | cons p rest ih =>
    obtain ⟨a, km⟩ := p
    simp only [List.map_cons, List.mem_cons, not_or] at h
    have ha : ¬ a = n := fun e => h.1 e.symm
    simp [lset, ha, ih h.2]

/-- On a store with unique namespace names the loops of `lset` write where the two
`find` calls lead. -/
theorem lset_eq_find (s : SimpleKV) (n k : String) (i : Nat) (v : String)
    (hn : (s.map Prod.fst).Nodup) :
    lset s n k i v =
      match mfind s n with
      | none => (false, s)
      | some km =>
        match mfind km k with
        | some (ValueType.list l) =>
          if i < l.length then (true, mset s n (mset km k (ValueType.list (l.set i v))))
          else (false, s)
        | some (ValueType.str _) => (false, s)
        | none => (false, s) := by
  induction s with
  | nil => rfl
  | cons p rest ih =>
    obtain ⟨a, km⟩ := p
    simp only [List.map_cons, List.nodup_cons] at hn
    by_cases ha : a = n
    · subst ha
      simp only [lset, if_true, mfind, lsetKeys_eq, mset]
      cases hk : mfind km k with
      | none => simp [lset_not_mem rest a k i v hn.1]
      | some b =>
        cases b with
        | str x => rfl
        | list l =>
          by_cases hi : i < l.length
          · simp [hi]
          · simp [hi]
    · have e := ih hn.2
      cases hf : mfind rest n with
      | none =>
        rw [hf] at e
        simp [lset, ha, mfind, hf, e]
      | some km2 =>
        cases hk : mfind km2 k with
        | none =>
          simp only [hf, hk] at e
          simp [lset, ha, mfind, hf, hk, e]
        | some b =>
          cases b with
          | str x =>
            simp only [hf, hk] at e
            simp [lset, ha, mfind, hf, hk, e]
          | list l =>
            simp only [hf, hk] at e
            by_cases hi : i < l.length
            · simp only [hi, if_true] at e
              simp [lset, ha, mfind, hf, hk, e, hi, mset]
            · simp only [hi, if_false] at e
              simp [lset, ha, mfind, hf, hk, e, hi]

theorem lset_success (s : SimpleKV) (hw : WF s) (n k : String) (i : Nat) (v : String)
    (l : List String) (hl : lookup s n k = some (ValueType.list l)) (hi : i < l.length) :
    (lset s n k i v).1 = true ∧
    lookup (lset s n k i v).2 n k = some (ValueType.list (l.set i v)) := by
  obtain ⟨km, hf, hk⟩ := (lookup_some_iff s n k _).mp hl
  rw [lset_eq_find s n k i v hw.1]
  simp only [hf, hk, hi, if_true, true_and]
  rw [lookup_mset s n _ km n k hf]
  simp [mfind_mset, hk]

theorem lset_rejected (s : SimpleKV) (hw : WF s) (n k : String) (i : Nat) (v : String)
    (h : ∀ l, lookup s n k = some (ValueType.list l) → l.length ≤ i) :
    lset s n k i v = (false, s) := by
  rw [lset_eq_find s n k i v hw.1]
  cases hf : mfind s n with
  | none => rfl
  | some km =>
    cases hk : mfind km k with
    | none => simp only [hk]
    | some b =>
      cases b with
      | str x => simp only [hk]
      | list l =>
        have h2 := h l (by simp [lookup, hf, hk])
        have h3 : ¬ i < l.length := by omega
        simp [hk, h3]

theorem lsetKeys_map_fst (km : KeyMap) (k : String) (i : Nat) (v : String) (r : Bool)
    (km2 : KeyMap) (h : lsetKeys km k i v = some (r, km2)) :
    km2.map Prod.fst = km.map Prod.fst := by
  rw [lsetKeys_eq] at h
  cases hk : mfind km k with
  | none => simp [hk] at h
  | some b =>
    cases b with
    | str x =>
      simp only [hk, Option.some.injEq, Prod.mk.injEq] at h
      rw [← h.2]
    | list l =>
      by_cases hi : i < l.length
      · simp only [hk, hi, if_true, Option.some.injEq, Prod.mk.injEq] at h
        rw [← h.2, map_fst_mset]
      · simp only [hk, hi, if_false, Option.some.injEq, Prod.mk.injEq] at h
        rw [← h.2]

/-- No call of `lset` creates or removes a key. -/
theorem lset_keys (s : SimpleKV) (n k : String) (i : Nat) (v : String) (n2 : String) :
    keys (lset s n k i v).2 n2 = keys s n2 := by
  induction s with
  | nil => rfl
  | cons p rest ih =>
    obtain ⟨a, km⟩ := p
    by_cases ha : a = n
    · cases hl : lsetKeys km k i v with
      | none => simp [lset, ha, hl, keys, ih]
      | some q =>
        obtain ⟨r, km2⟩ := q
        simp [lset, ha, hl, keys, lsetKeys_map_fst km k i v r km2 hl]
    · simp [lset, ha, keys, ih]

theorem lindex_eq_lookup (s : SimpleKV) (n k : String) (i : Nat) :
    lindex s n k i =
      match lookup s n k with
      | some (ValueType.list l) => l.get? i
      | some (ValueType.str _) => none
      | none => none := by
  cases hf : mfind s n with
  | none => simp [lindex, lookup, hf]
  | some km =>
    cases hk : mfind km k with
    | none => simp [lindex, lookup, hf, hk]
    | some b =>
      cases b with
      | str x => simp [lindex, lookup, hf, hk]
      | list l =>
        simp only [lindex, lookup, hf, hk]
        by_cases hi : i < l.length
        · simp [hi]
        · simp only [hi, if_false]
          exact (List.get?_eq_none.mpr (by omega)).symm

/-- A call of `lset` on `(n, k)` leaves what is stored under every other pair. -/
theorem lookup_lset_other (s : SimpleKV) (hw : WF s) (n k : String) (i : Nat) (v : String)
    (n2 k2 : String) (h : ¬ (n2 = n ∧ k2 = k)) :
    lookup (lset s n k i v).2 n2 k2 = lookup s n2 k2 := by
  rw [lset_eq_find s n k i v hw.1]
  cases hf : mfind s n with
  | none => rfl
  | some km =>
    cases hk : mfind km k with
    | none => simp only [hk]
    | some b =>
      cases b with
      | str x => simp only [hk]
      | list l =>
        by_cases hi : i < l.length
        · simp only [hk, hi, if_true]
          rw [lookup_mset s n _ km n2 k2 hf]
          by_cases hn : n2 = n
          · have hk2 : k2 ≠ k := fun e => h ⟨hn, e⟩
            simp [hn, mfind_mset_ne km k _ k2 hk2, lookup, hf]
          · simp [hn]
        · simp [hk, hi]

/-- No call of `lset` changes the length reported for any key. -/
theorem llen_lset (s : SimpleKV) (hw : WF s) (n k : String) (i : Nat) (v : String)
    (n2 k2 : String) : llen (lset s n k i v).2 n2 k2 = llen s n2 k2 := by
  have hw2 : WF (lset s n k i v).2 := lset_AllKM nodupKM_closed s n k i v hw
  rw [llen_eq_lookup _ n2 k2 hw2.1, llen_eq_lookup s n2 k2 hw.1]
  by_cases h : n2 = n ∧ k2 = k
  · obtain ⟨e1, e2⟩ := h
    subst e1 e2
    by_cases hc : ∃ l, lookup s n2 k2 = some (ValueType.list l) ∧ i < l.length
    · obtain ⟨l, hl, hi⟩ := hc
      rw [(lset_success s hw n2 k2 i v l hl hi).2, hl]
      simp
    · have hr := lset_rejected s hw n2 k2 i v (fun l hl => by
        by_contra hlt
        exact hc ⟨l, hl, by omega⟩)
      rw [hr]
  · rw [lookup_lset_other s hw n k i v n2 k2 h]

/-! ## The set operations -/

theorem mem_usetInsertRange (set l : List String) (x : String) :
    x ∈ usetInsertRange set l ↔ x ∈ set ∨ x ∈ l := by
  induction l generalizing set with
  | nil => simp [usetInsertRange]
  | cons a rest ih =>
    simp only [usetInsertRange, ih, usetInsert, List.mem_cons]
    by_cases ha : a ∈ set
    · simp only [ha, if_true]
      constructor
      · rintro (h | h)
        · exact Or.inl h
        · exact Or.inr (Or.inr h)
      · rintro (h | h | h)
        · exact Or.inl h
        · exact Or.inl (h ▸ ha)
        · exact Or.inr h
    · simp only [ha, if_false, List.mem_cons]
      tauto

theorem nodup_usetInsertRange (set l : List String) (h : set.Nodup) :
    (usetInsertRange set l).Nodup := by
  induction l generalizing set with
  | nil => exact h
  | cons a rest ih =>
    simp only [usetInsertRange, usetInsert]
    by_cases ha : a ∈ set
    · simp only [ha, if_true]
      exact ih set h
    · simp only [ha, if_false]
      exact ih (a :: set) (List.nodup_cons.mpr ⟨ha, h⟩)

theorem mem_usetOfRange (l : List String) (x : String) : x ∈ usetOfRange l ↔ x ∈ l := by
  simp [usetOfRange, mem_usetInsertRange]

theorem mem_keepFirst (seen l : List String) (x : String) :
    x ∈ keepFirst seen l ↔ x ∈ l ∧ x ∉ seen := by
  induction l generalizing seen with
  | nil => simp [keepFirst]
  | cons a rest ih =>
    by_cases ha : a ∈ seen
    · simp only [keepFirst, ha, if_true, ih, List.mem_cons]
      constructor
      · rintro ⟨h1, h2⟩
        exact ⟨Or.inr h1, h2⟩
      · rintro ⟨h1 | h1, h2⟩
        · exact absurd (h1 ▸ ha) h2
        · exact ⟨h1, h2⟩
    · simp only [keepFirst, ha, if_false, List.mem_cons, ih, not_or]
      constructor
      · rintro (h | ⟨h1, h2, h3⟩)
        · exact ⟨Or.inl h, h ▸ ha⟩
        · exact ⟨Or.inr h1, h3⟩
      · rintro ⟨h1 | h1, h2⟩
        · exact Or.inl h1
        · by_cases hx : x = a
          · exact Or.inl hx
          · exact Or.inr ⟨h1, hx, h2⟩

theorem nodup_keepFirst (seen l : List String) : (keepFirst seen l).Nodup := by
  induction l generalizing seen with
  | nil => simp [keepFirst]
  | cons a rest ih =>
    by_cases ha : a ∈ seen
    · simp only [keepFirst, ha, if_true]
      exact ih seen
    · simp only [keepFirst, ha, if_false, List.nodup_cons]
      refine ⟨?_, ih (a :: seen)⟩
      rw [mem_keepFirst]
      simp

theorem keepFirst_sublist (seen l : List String) : List.Sublist (keepFirst seen l) l := by
  induction l generalizing seen with
  | nil => simp [keepFirst]
  | cons a rest ih =>
    by_cases ha : a ∈ seen
    · simp only [keepFirst, ha, if_true]
      exact List.Sublist.cons a (ih seen)
    · simp only [keepFirst, ha, if_false]
      exact List.Sublist.cons₂ a (ih (a :: seen))

/-- The loop of `linter` keeps, in order, the values found in `interSet` that were not
added before. -/
theorem linterLoop_eq (interSet l addedSet interList : List String) :
    linterLoop interSet l addedSet interList =
      interList ++ keepFirst addedSet (l.filter (fun x => decide (x ∈ interSet))) := by
  induction l generalizing addedSet interList with
  | nil => simp [linterLoop, keepFirst]
  | cons a rest ih =>
    by_cases hi : a ∈ interSet
    · by_cases ha : a ∈ addedSet
      · simp [linterLoop, hi, usetInsert, ha, ih, keepFirst]
      · simp [linterLoop, hi, usetInsert, ha, ih, keepFirst]
    · simp [linterLoop, hi, ih]

/-- The loop of `ldiff` keeps, in order, the values not found in `diffSet` that were not
added before. -/
theorem ldiffLoop_eq (diffSet l addedSet diffList : List String) :
    ldiffLoop diffSet l addedSet diffList =
      diffList ++ keepFirst addedSet (l.filter (fun x => decide (x ∉ diffSet))) := by
  induction l generalizing addedSet diffList with
  | nil => simp [ldiffLoop, keepFirst]
  | cons a rest ih =>
    by_cases hi : a ∈ diffSet
    · simp [ldiffLoop, hi, ih]
    · by_cases ha : a ∈ addedSet
      · simp [ldiffLoop, hi, usetInsert, ha, ih, keepFirst]
      · simp [ldiffLoop, hi, usetInsert, ha, ih, keepFirst]

theorem linterLoop_spec (A B : List String) :
    linterLoop (usetOfRange B) A [] [] = interSpec A B := by
  rw [linterLoop_eq]
  simp only [List.nil_append, interSpec, distinctInOrder]
  congr 1
  apply List.filter_congr
  intro x _
  simp [mem_usetOfRange]

theorem ldiffLoop_spec (A B : List String) :
    ldiffLoop (usetOfRange B) A [] [] = diffSpec A B := by
  rw [ldiffLoop_eq]
  simp only [List.nil_append, diffSpec, distinctInOrder]
  congr 1
  apply List.filter_congr
  intro x _
  simp [mem_usetOfRange]

theorem interSpec_props (A B : List String) :
    (interSpec A B).Nodup ∧ (∀ x, x ∈ interSpec A B ↔ x ∈ A ∧ x ∈ B) ∧
    List.Sublist (interSpec A B) A := by
  refine ⟨nodup_keepFirst _ _, ?_, ?_⟩
  · intro x
    simp [interSpec, distinctInOrder, mem_keepFirst]
  · exact (keepFirst_sublist _ _).trans (List.filter_sublist _)

theorem diffSpec_props (A B : List String) :
    (diffSpec A B).Nodup ∧ (∀ x, x ∈ diffSpec A B ↔ x ∈ A ∧ x ∉ B) ∧
    List.Sublist (diffSpec A B) A := by
  refine ⟨nodup_keepFirst _ _, ?_, ?_⟩
  · intro x
    simp [diffSpec, distinctInOrder, mem_keepFirst]
  · exact (keepFirst_sublist _ _).trans (List.filter_sublist _)

theorem lmembers_eq_none_of_key_exists (s : SimpleKV) (n k : String)
    (h : key_exists s n k = false) : lmembers s n k = none := by
  cases hs : scan s n k with
  | none => simp [lmembers, hs]
  | some b => simp [key_exists, hs] at h

/-! ## The frame of the writes -/

theorem sameAt_of_lookup (s s2 : SimpleKV) (hw : WF s) (hw2 : WF s2) (n k : String)
    (h : lookup s2 n k = lookup s n k) : SameAt s s2 n k := by
  refine ⟨?_, ?_, ?_⟩
  · rw [type_eq_lookup, type_eq_lookup, h]
  · rw [sget_eq_lookup s2 n k hw2.1, sget_eq_lookup s n k hw.1, h]
  · rw [lmembers_eq_lookup s2 n k hw2.1, lmembers_eq_lookup s n k hw.1, h]

theorem frame_mset (s : SimpleKV) (n k : String) (km km2 : KeyMap)
    (hf : mfind s n = some km) (hk : ∀ k2, k2 ≠ k → mfind km2 k2 = mfind km k2)
    (n2 k2 : String) (h : ¬ (n2 = n ∧ k2 = k)) :
    lookup (mset s n km2) n2 k2 = lookup s n2 k2 := by
  rw [lookup_mset s n km2 km n2 k2 hf]
  by_cases hn : n2 = n
  · have hk2 : k2 ≠ k := fun e => h ⟨hn, e⟩
    simp [hn, hk k2 hk2, lookup, hf]
  · simp [hn]

theorem frame_merase (s : SimpleKV) (hw : WF s) (n k : String) (km : KeyMap)
    (b : ValueType) (hf : mfind s n = some km) (hk : mfind km k = some b)
    (he : merase km k = []) (n2 k2 : String) (h : ¬ (n2 = n ∧ k2 = k)) :
    lookup (merase s n) n2 k2 = lookup s n2 k2 := by
  rw [lookup_merase s n n2 k2 hw.1]
  by_cases hn : n2 = n
  · have hk2 : ¬ k = k2 := fun e => h ⟨hn, e.symm⟩
    have hkm : (km.map Prod.fst).Nodup := hw.2 (n, km) (mfind_some_mem s n km hf)
    have e := merase_eq_nil km k b hkm hk he
    simp [hn, lookup, hf, e, mfind, hk2]
  · simp [hn]

theorem frame_cons (s : SimpleKV) (n k : String) (v : ValueType)
    (hf : mfind s n = none) (n2 k2 : String) (h : ¬ (n2 = n ∧ k2 = k)) :
    lookup ((n, [(k, v)]) :: s) n2 k2 = lookup s n2 k2 := by
  rw [lookup_cons]
  by_cases hn : n = n2
  · subst hn
    have hk2 : ¬ k = k2 := fun e => h ⟨rfl, e.symm⟩
    simp [mfind, hk2, lookup, hf]
  · simp [hn]

theorem mfind_cons_ne {β : Type} (m : List (String × β)) (k : String) (v : β) (k2 : String)
    (h : k2 ≠ k) : mfind ((k, v) :: m) k2 = mfind m k2 := by
  have h2 : ¬ k = k2 := fun e => h e.symm
  simp [mfind, h2]

theorem lookup_sset_other (s : SimpleKV) (n k v : String) (n2 k2 : String)
    (h : ¬ (n2 = n ∧ k2 = k)) : lookup (sset s n k v) n2 k2 = lookup s n2 k2 := by
  cases hf : mfind s n with
  | none =>
    simp only [sset, hf]
    exact frame_cons s n k _ hf n2 k2 h
  | some km =>
    cases hk : mfind km k with
    | none =>
      simp only [sset, hf, hk]
      exact frame_mset s n k km _ hf (fun k2 h2 => mfind_cons_ne km k _ k2 h2) n2 k2 h
    | some b =>
      simp only [sset, hf, hk]
      exact frame_mset s n k km _ hf (fun k2 h2 => mfind_mset_ne km k _ k2 h2) n2 k2 h

theorem lookup_del_other (s : SimpleKV) (hw : WF s) (n k : String) (n2 k2 : String)
    (h : ¬ (n2 = n ∧ k2 = k)) : lookup (del s n k).2 n2 k2 = lookup s n2 k2 := by
  cases hf : mfind s n with
  | none => simp only [del, hf]
  | some km =>
    cases hk : mfind km k with
    | none => simp only [del, hf, hk]
    | some b =>
      by_cases he : (merase km k).isEmpty = true
      · simp only [del, hf, hk, he, if_true]
        exact frame_merase s hw n k km b hf hk (List.isEmpty_iff.mp he) n2 k2 h
      · simp only [del, hf, hk]
        rw [if_neg he]
        exact frame_mset s n k km _ hf (fun k2 h2 => mfind_merase_ne km k k2 h2) n2 k2 h

theorem lookup_lpush_other (s : SimpleKV) (n k v : String) (n2 k2 : String)
    (h : ¬ (n2 = n ∧ k2 = k)) : lookup (lpush s n k v).2 n2 k2 = lookup s n2 k2 := by
  cases hf : mfind s n with
  | none =>
    simp only [lpush, hf]
    exact frame_cons s n k _ hf n2 k2 h
  | some km =>
    cases hk : mfind km k with
    | none =>
      simp only [lpush, hf, hk]
      exact frame_mset s n k km _ hf (fun k2 h2 => mfind_cons_ne km k _ k2 h2) n2 k2 h
    | some b =>
      cases b with
      | str x => simp only [lpush, hf, hk]
      | list l =>
        simp only [lpush, hf, hk]
        exact frame_mset s n k km _ hf (fun k2 h2 => mfind_mset_ne km k _ k2 h2) n2 k2 h

theorem lookup_rpush_other (s : SimpleKV) (n k v : String) (n2 k2 : String)
    (h : ¬ (n2 = n ∧ k2 = k)) : lookup (rpush s n k v).2 n2 k2 = lookup s n2 k2 := by
  cases hf : mfind s n with
  | none =>
    simp only [rpush, hf]
    exact frame_cons s n k _ hf n2 k2 h
  | some km =>
    cases hk : mfind km k with
    | none =>
      simp only [rpush, hf, hk]
      exact frame_mset s n k km _ hf (fun k2 h2 => mfind_cons_ne km k _ k2 h2) n2 k2 h
    | some b =>
      cases b with
      | str x => simp only [rpush, hf, hk]
      | list l =>
        simp only [rpush, hf, hk]
        exact frame_mset s n k km _ hf (fun k2 h2 => mfind_mset_ne km k _ k2 h2) n2 k2 h

theorem lookup_lpop_other (s : SimpleKV) (hw : WF s) (n k : String) (n2 k2 : String)
    (h : ¬ (n2 = n ∧ k2 = k)) : lookup (lpop s n k).2 n2 k2 = lookup s n2 k2 := by
  cases hf : mfind s n with
  | none => simp only [lpop, hf]
  | some km =>
    cases hk : mfind km k with
    | none => simp only [lpop, hf, hk]
    | some b =>
      cases b with
      | str x => simp only [lpop, hf, hk]
      | list l =>
        cases l with
        | nil => simp only [lpop, hf, hk]
        | cons a rest =>
          cases rest with
          | nil =>
            by_cases he : (merase km k).isEmpty = true
            · simp only [lpop, hf, hk, List.isEmpty_nil, he, if_true]
              exact frame_merase s hw n k km _ hf hk (List.isEmpty_iff.mp he) n2 k2 h
            · simp only [lpop, hf, hk, List.isEmpty_nil, if_true]
              rw [if_neg he]
              exact frame_mset s n k km _ hf (fun k2 h2 => mfind_merase_ne km k k2 h2)
                n2 k2 h
          | cons b rest2 =>
            simp only [lpop, hf, hk, List.isEmpty_cons]
            rw [if_neg (by simp)]
            exact frame_mset s n k km _ hf (fun k2 h2 => mfind_mset_ne km k _ k2 h2) n2 k2 h

theorem lookup_rpop_other (s : SimpleKV) (hw : WF s) (n k : String) (r : Option String)
    (s2 : SimpleKV) (hr : rpop s n k = some (r, s2)) (n2 k2 : String)
    (h : ¬ (n2 = n ∧ k2 = k)) : lookup s2 n2 k2 = lookup s n2 k2 := by
  cases hf : mfind s n with
  | none =>
    simp only [rpop, hf, Option.some.injEq, Prod.mk.injEq] at hr
    rw [← hr.2]
  | some km =>
    cases hk : mfind km k with
    | none =>
      simp only [rpop, hf, hk, Option.some.injEq, Prod.mk.injEq] at hr
      rw [← hr.2]
    | some b =>
      cases b with
      | str x =>
        simp only [rpop, hf, hk, Option.some.injEq, Prod.mk.injEq] at hr
        rw [← hr.2]
      | list l =>
        cases hl : l.getLast? with
        | none =>
          simp only [rpop, hf, hk, hl, Option.some.injEq, Prod.mk.injEq] at hr
          rw [← hr.2]
        | some pop =>
          simp only [rpop, hf, hk, hl] at hr
          by_cases hd : l.dropLast.isEmpty = true
          · simp only [hd, if_true] at hr
            by_cases he : (merase km k).isEmpty = true
            · rw [if_pos he] at hr
              by_cases hs : (merase s n).isEmpty = true
              · rw [if_pos hs] at hr
                cases hr
              · rw [if_neg hs] at hr
                simp only [Option.some.injEq, Prod.mk.injEq] at hr
                rw [← hr.2]
                exact frame_merase s hw n k km _ hf hk (List.isEmpty_iff.mp he) n2 k2 h
            · rw [if_neg he] at hr
              simp only [Option.some.injEq, Prod.mk.injEq] at hr
              rw [← hr.2]
              exact frame_mset s n k km _ hf (fun k2 h2 => mfind_merase_ne km k k2 h2)
                n2 k2 h
          · have hne := mset_ne_nil km k (ValueType.list l.dropLast) _ hk
            have he : ¬ (mset km k (ValueType.list l.dropLast)).isEmpty = true := by
              intro e
              exact hne (List.isEmpty_iff.mp e)
            rw [if_neg hd, if_neg he] at hr
            simp only [Option.some.injEq, Prod.mk.injEq] at hr
            rw [← hr.2]
            exact frame_mset s n k km _ hf (fun k2 h2 => mfind_mset_ne km k _ k2 h2) n2 k2 h

theorem mem_keys_iff (s : SimpleKV) (hw : WF s) (n k : String) :
    k ∈ keys s n ↔ ∃ km, mfind s n = some km ∧ k ∈ km.map Prod.fst := by
  cases hf : mfind s n with
  | none => simp [keys_eq_nil_of_find s n hf]
  | some km => simp [keys_eq_of_find s n km hw.1 hf]

theorem key_exists_iff_mem_keys (s : SimpleKV) (hw : WF s) (n k : String) :
    key_exists s n k = true ↔ k ∈ keys s n := by
  rw [key_exists_eq_lookup s n k hw.1, mem_keys_iff s hw]
  cases hf : mfind s n with
  | none => simp [lookup, hf]
  | some km =>
    simp only [lookup, hf, Option.some.injEq, exists_eq_left']
    cases hk : mfind km k with
    | none =>
      have := (mfind_eq_none_iff km k).mp hk
      simp [this]
    | some b =>
      have h1 : k ∈ km.map Prod.fst := by
        by_contra hc
        rw [(mfind_eq_none_iff km k).mpr hc] at hk
        cases hk
      simp [h1]

/-- The elements that `keepFirst` keeps depend on `seen` only through the elements of the
list itself. -/
theorem keepFirst_congr (seen1 seen2 l : List String)
    (h : ∀ x ∈ l, (x ∈ seen1 ↔ x ∈ seen2)) : keepFirst seen1 l = keepFirst seen2 l := by
  induction l generalizing seen1 seen2 with
  | nil => rfl
  | cons a rest ih =>
    have ha := h a (List.mem_cons_self a rest)
    have hrest : ∀ x ∈ rest, (x ∈ seen1 ↔ x ∈ seen2) :=
      fun x hx => h x (List.mem_cons_of_mem a hx)
    by_cases h1 : a ∈ seen1
    · have h2 : a ∈ seen2 := ha.mp h1
      simp only [keepFirst, h1, h2, if_true]
      exact ih seen1 seen2 hrest
    · have h2 : a ∉ seen2 := fun e => h1 (ha.mpr e)
      simp only [keepFirst, h1, h2, if_false]
      congr 1
      apply ih
      intro x hx
      simp only [List.mem_cons]
      rw [hrest x hx]

/-- Splitting a list by membership in `B` splits what `keepFirst` keeps of it. -/
theorem keepFirst_split (B seen l : List String) :
    (keepFirst seen (l.filter (fun x => decide (x ∈ B)))).length +
      (keepFirst seen (l.filter (fun x => decide (x ∉ B)))).length =
    (keepFirst seen l).length := by
  induction l generalizing seen with
  | nil => simp [keepFirst]
  | cons a rest ih =>
    by_cases hb : a ∈ B
    · have e1 : (a :: rest).filter (fun x => decide (x ∈ B))
          = a :: rest.filter (fun x => decide (x ∈ B)) := by simp [List.filter_cons, hb]
      have e2 : (a :: rest).filter (fun x => decide (x ∉ B))
          = rest.filter (fun x => decide (x ∉ B)) := by simp [List.filter_cons, hb]
      rw [e1, e2]
      by_cases ha : a ∈ seen
      · simp only [keepFirst, ha, if_true]
        exact ih seen
      · have e3 : keepFirst seen (rest.filter (fun x => decide (x ∉ B)))
            = keepFirst (a :: seen) (rest.filter (fun x => decide (x ∉ B))) := by
          apply keepFirst_congr
          intro x hx
          have hxb : x ∉ B := by simpa using (List.mem_filter.mp hx).2
          have hxa : x ≠ a := fun e => hxb (e ▸ hb)
          simp [hxa]
        simp only [keepFirst, ha, if_false, List.length_cons]
        rw [e3]
        have := ih (a :: seen)
        omega
    · have e1 : (a :: rest).filter (fun x => decide (x ∈ B))
          = rest.filter (fun x => decide (x ∈ B)) := by simp [List.filter_cons, hb]
      have e2 : (a :: rest).filter (fun x => decide (x ∉ B))
          = a :: rest.filter (fun x => decide (x ∉ B)) := by simp [List.filter_cons, hb]
      rw [e1, e2]
      by_cases ha : a ∈ seen
      · simp only [keepFirst, ha, if_true]
        exact ih seen
      · have e3 : keepFirst seen (rest.filter (fun x => decide (x ∈ B)))
            = keepFirst (a :: seen) (rest.filter (fun x => decide (x ∈ B))) := by
          apply keepFirst_congr
          intro x hx
          have hxb : x ∈ B := by simpa using (List.mem_filter.mp hx).2
          have hxa : x ≠ a := fun e => hb (e ▸ hxb)
          simp [hxa]
        simp only [keepFirst, ha, if_false, List.length_cons]
        rw [e3]
        have := ih (a :: seen)
        omega

theorem distinctInOrder_length (A : List String) :
    (distinctInOrder A).length = A.toFinset.card := by
  have hn : (distinctInOrder A).Nodup := nodup_keepFirst [] A
  rw [← List.toFinset_card_of_nodup hn]
  congr 1
  ext x
  simp [distinctInOrder, mem_keepFirst]

theorem type_list_of_lmembers (s : SimpleKV) (hw : WF s) (n k : String) (l : List String)
    (h : lmembers s n k = some l) : type s n k = value_type_info.list := by
  rw [type_eq_lookup, lookup_of_lmembers s hw n k l h]

/-! ## The claims -/

/-- C1: in every store reachable from the empty store by the public operations,
`ns_exists N` is true if and only if some key `K` has `key_exists N K` true; no entry of
the store has an empty key map, and a namespace listed by `namespaces` has a non-empty
list of `keys`. -/
theorem C1_nonempty_namespace_invariant (s : SimpleKV) (h : Reachable s) (N : String) :
    (ns_exists s N = true ↔ ∃ K, key_exists s N K = true) ∧
    (∀ p ∈ s, p.2 ≠ []) ∧
    (N ∈ namespaces s → keys s N ≠ []) := by
  have hi := h.inv
  refine ⟨⟨?_, ?_⟩, fun p hp => (hi.2 p hp).2.1, ?_⟩
  · intro hn
    cases hf : mfind s N with
    | none => simp [ns_exists, hf] at hn
    | some km =>
      have hg : GoodKM km := hi.2 (N, km) (mfind_some_mem s N km hf)
      cases km with
      | nil => exact absurd rfl hg.2.1
      | cons q rest =>
        obtain ⟨K, v⟩ := q
        refine ⟨K, ?_⟩
        rw [key_exists_eq_lookup s N K hi.1]
        simp [lookup, hf, mfind]
  · rintro ⟨K, hk⟩
    rw [key_exists_eq_lookup s N K hi.1] at hk
    cases hl : lookup s N K with
    | none => simp [hl] at hk
    | some v => exact ns_exists_of_lookup s N K v hl
  · intro hn he
    obtain ⟨p, hp, hpn⟩ := List.mem_map.mp hn
    obtain ⟨a, km⟩ := p
    simp only at hpn
    subst hpn
    have hg : GoodKM km := hi.2 (a, km) hp
    cases km with
    | nil => exact absurd rfl hg.2.1
    | cons q rest =>
      have hq := keys_of_mem s a (q :: rest) hp q.1 (by simp)
      rw [he] at hq
      simp at hq

theorem C1_nonempty_namespace_invariant_witness :
    Reachable (sset [] "a" "b" "c") ∧
    ((ns_exists (sset [] "a" "b" "c") "a" = true ↔
        ∃ K, key_exists (sset [] "a" "b" "c") "a" K = true) ∧
      (∀ p ∈ sset [] "a" "b" "c", p.2 ≠ []) ∧
      ("a" ∈ namespaces (sset [] "a" "b" "c") → keys (sset [] "a" "b" "c") "a" ≠ [])) :=
  ⟨Reachable.sset [] "a" "b" "c" Reachable.init,
    C1_nonempty_namespace_invariant (sset [] "a" "b" "c")
      (Reachable.sset [] "a" "b" "c" Reachable.init) "a"⟩

/-- C2 (evaluation at the failing input): the store made by one `rpush` on the empty
store is reachable, has the single namespace `ns` with the single key `k` holding the
one-element list `["v"]`; there `rpop` has undefined behaviour (the second
`kv_store.erase(first_iter)`), whereas `lpop` and `del` remove the key and the
namespace and leave the empty store. -/
theorem C2_rpop_last_namespace_undefined :
    Reachable (rpush [] "ns" "k" "v").2 ∧
    namespaces (rpush [] "ns" "k" "v").2 = ["ns"] ∧
    keys (rpush [] "ns" "k" "v").2 "ns" = ["k"] ∧
    lmembers (rpush [] "ns" "k" "v").2 "ns" "k" = some ["v"] ∧
    rpop (rpush [] "ns" "k" "v").2 "ns" "k" = none ∧
    lpop (rpush [] "ns" "k" "v").2 "ns" "k" = (some "v", []) ∧
    del (rpush [] "ns" "k" "v").2 "ns" "k" = (true, []) :=
  ⟨Reachable.rpush [] "ns" "k" "v" Reachable.init, by decide, by decide, by decide,
    by decide, by decide, by decide⟩

/-- C3: for every store, namespace `N`, key `K` and string `v`, whatever `(N, K)` held
before, after `sset N K v` the type of `(N, K)` is `string` and `sget N K` returns `v`. -/
theorem C3_sset_overwrite (s : SimpleKV) (N K v : String) :
    type (sset s N K v) N K = value_type_info.string ∧
    sget (sset s N K v) N K = some v := by
  have hl := lookup_sset_self s N K v
  refine ⟨?_, ?_⟩
  · rw [type_eq_lookup, hl]
  · simp only [sget, scan_of_lookup _ N K _ hl]

/-- C4: for every (well-formed) store and every `(N, K)`, `sget` returns a value iff the
type is `string`, `lmembers` returns a value iff the type is `list`; when the type is
`none` both return absent, and they never both return a value. -/
theorem C4_type_exclusivity (s : SimpleKV) (hw : WF s) (N K : String) :
    ((sget s N K).isSome = true ↔ type s N K = value_type_info.string) ∧
    ((lmembers s N K).isSome = true ↔ type s N K = value_type_info.list) ∧
    (type s N K = value_type_info.none → sget s N K = none ∧ lmembers s N K = none) ∧
    ¬ ((sget s N K).isSome = true ∧ (lmembers s N K).isSome = true) := by
  rw [sget_eq_lookup s N K hw.1, lmembers_eq_lookup s N K hw.1, type_eq_lookup]
  cases hl : lookup s N K with
  | none => simp
  | some b =>
    cases b with
    | str x => simp
    | list l => simp

theorem C4_type_exclusivity_witness :
    WF sampleStore ∧
    (((sget sampleStore "n" "k").isSome = true ↔
        type sampleStore "n" "k" = value_type_info.string) ∧
      ((lmembers sampleStore "n" "k").isSome = true ↔
        type sampleStore "n" "k" = value_type_info.list) ∧
      (type sampleStore "n" "k" = value_type_info.none →
        sget sampleStore "n" "k" = none ∧ lmembers sampleStore "n" "k" = none) ∧
      ¬ ((sget sampleStore "n" "k").isSome = true ∧
        (lmembers sampleStore "n" "k").isSome = true)) :=
  ⟨by unfold WF; decide, C4_type_exclusivity sampleStore (by unfold WF; decide) "n" "k"⟩

/-- C5: for every reachable store, every `(N, K)` that is absent or holds a list, and
every `v`: `lpush N K v` succeeds, the following `lpop N K` returns `v`, and afterwards
`lmembers N K`, `type N K` and `ns_exists N` are what they were before the push. -/
theorem C5_push_pop_symmetry (s : SimpleKV) (h : Reachable s) (N K v : String)
    (ht : type s N K ≠ value_type_info.string) :
    (lpush s N K v).1 = true ∧
    (lpop (lpush s N K v).2 N K).1 = some v ∧
    lmembers (lpop (lpush s N K v).2 N K).2 N K = lmembers s N K ∧
    type (lpop (lpush s N K v).2 N K).2 N K = type s N K ∧
    ns_exists (lpop (lpush s N K v).2 N K).2 N = ns_exists s N := by
  have hs := lookup_ne_str s N K ht
  have hp := lpop_lpush s N K v h.inv hs
  refine ⟨(push_result s N K v).2.mpr hs, ?_, ?_, ?_, ?_⟩ <;> rw [hp]

theorem C5_push_pop_symmetry_witness :
    Reachable (rpush [] "n" "j" "y").2 ∧
    type (rpush [] "n" "j" "y").2 "n" "j" ≠ value_type_info.string ∧
    ((lpush (rpush [] "n" "j" "y").2 "n" "j" "z").1 = true ∧
      (lpop (lpush (rpush [] "n" "j" "y").2 "n" "j" "z").2 "n" "j").1 = some "z" ∧
      lmembers (lpop (lpush (rpush [] "n" "j" "y").2 "n" "j" "z").2 "n" "j").2 "n" "j"
        = lmembers (rpush [] "n" "j" "y").2 "n" "j" ∧
      type (lpop (lpush (rpush [] "n" "j" "y").2 "n" "j" "z").2 "n" "j").2 "n" "j"
        = type (rpush [] "n" "j" "y").2 "n" "j" ∧
      ns_exists (lpop (lpush (rpush [] "n" "j" "y").2 "n" "j" "z").2 "n" "j").2 "n"
        = ns_exists (rpush [] "n" "j" "y").2 "n") :=
  ⟨Reachable.rpush [] "n" "j" "y" Reachable.init, by decide,
    C5_push_pop_symmetry (rpush [] "n" "j" "y").2
      (Reachable.rpush [] "n" "j" "y" Reachable.init) "n" "j" "z" (by decide)⟩

/-- C6: for every (well-formed) store and `(N, K)`, `del N K` returns true iff
`key_exists N K` was true before the call; after the call `key_exists N K` is false;
and when it returns false the store is unchanged. -/
theorem C6_del_contract (s : SimpleKV) (hw : WF s) (N K : String) :
    ((del s N K).1 = true ↔ key_exists s N K = true) ∧
    key_exists (del s N K).2 N K = false ∧
    ((del s N K).1 = false → (del s N K).2 = s) := by
  have hw2 : WF (del s N K).2 := del_AllKM nodupKM_closed s N K hw
  refine ⟨?_, ?_, del_unchanged s N K⟩
  · rw [del_result, key_exists_eq_lookup s N K hw.1]
  · rw [key_exists_eq_lookup _ N K hw2.1, lookup_del_self s N K hw]
    rfl

theorem C6_del_contract_witness :
    WF sampleStore ∧
    (((del sampleStore "n" "k").1 = true ↔ key_exists sampleStore "n" "k" = true) ∧
      key_exists (del sampleStore "n" "k").2 "n" "k" = false ∧
      ((del sampleStore "n" "k").1 = false → (del sampleStore "n" "k").2 = sampleStore)) :=
  ⟨by unfold WF; decide, C6_del_contract sampleStore (by unfold WF; decide) "n" "k"⟩

/-- C7: for every (well-formed) store and `(N, K)` that is absent or holds a list `L`
(with `L = []` when absent), `lpush N K v` returns true and afterwards `lmembers N K` is
`v` followed by `L`; `rpush N K v` returns true and afterwards `lmembers N K` is `L`
followed by `v`; on an absent key the result is `[v]`; and the namespace exists after
the push. -/
theorem C7_push_result (s : SimpleKV) (hw : WF s) (N K v : String)
    (ht : type s N K ≠ value_type_info.string) :
    (lpush s N K v).1 = true ∧
    lmembers (lpush s N K v).2 N K = some (v :: (lmembers s N K).getD []) ∧
    (rpush s N K v).1 = true ∧
    lmembers (rpush s N K v).2 N K = some ((lmembers s N K).getD [] ++ [v]) ∧
    (type s N K = value_type_info.none →
      lmembers (lpush s N K v).2 N K = some [v] ∧
      lmembers (rpush s N K v).2 N K = some [v]) ∧
    ns_exists (lpush s N K v).2 N = true ∧
    ns_exists (rpush s N K v).2 N = true := by
  have hs := lookup_ne_str s N K ht
  have hl := lookup_lpush_self s N K v
  have hr := lookup_rpush_self s N K v
  have hp := push_result s N K v
  have h1 : (lpush s N K v).1 = true := hp.2.mpr hs
  have h2 : (rpush s N K v).1 = true := by rw [← hp.1]; exact h1
  rw [lmembers_eq_lookup s N K hw.1, type_eq_lookup]
  cases hk : lookup s N K with
  | none =>
    rw [hk] at hl hr
    have e1 : lmembers (lpush s N K v).2 N K = some [v] := by
      simp only [lmembers, scan_of_lookup _ N K _ hl]
    have e2 : lmembers (rpush s N K v).2 N K = some [v] := by
      simp only [lmembers, scan_of_lookup _ N K _ hr]
    exact ⟨h1, by simp [e1], h2, by simp [e2], fun _ => ⟨e1, e2⟩,
      ns_exists_of_lookup _ N K _ hl, ns_exists_of_lookup _ N K _ hr⟩
  | some b =>
    cases b with
    | str x => exact absurd hk (hs x)
    | list l =>
      rw [hk] at hl hr
      have e1 : lmembers (lpush s N K v).2 N K = some (v :: l) := by
        simp only [lmembers, scan_of_lookup _ N K _ hl]
      have e2 : lmembers (rpush s N K v).2 N K = some (l ++ [v]) := by
        simp only [lmembers, scan_of_lookup _ N K _ hr]
      exact ⟨h1, by simp [e1], h2, by simp [e2], fun e => by simp at e,
        ns_exists_of_lookup _ N K _ hl, ns_exists_of_lookup _ N K _ hr⟩

theorem C7_push_result_witness :
    WF sampleStore ∧ type sampleStore "n" "j" ≠ value_type_info.string ∧
    ((lpush sampleStore "n" "j" "v").1 = true ∧
      lmembers (lpush sampleStore "n" "j" "v").2 "n" "j"
        = some ("v" :: (lmembers sampleStore "n" "j").getD []) ∧
      (rpush sampleStore "n" "j" "v").1 = true ∧
      lmembers (rpush sampleStore "n" "j" "v").2 "n" "j"
        = some ((lmembers sampleStore "n" "j").getD [] ++ ["v"]) ∧
      (type sampleStore "n" "j" = value_type_info.none →
        lmembers (lpush sampleStore "n" "j" "v").2 "n" "j" = some ["v"] ∧
        lmembers (rpush sampleStore "n" "j" "v").2 "n" "j" = some ["v"]) ∧
      ns_exists (lpush sampleStore "n" "j" "v").2 "n" = true ∧
      ns_exists (rpush sampleStore "n" "j" "v").2 "n" = true) :=
  ⟨by unfold WF; decide, by decide,
    C7_push_result sampleStore (by unfold WF; decide) "n" "j" "v" (by decide)⟩

/-- C8: for every store in which `(N, K)` holds a scalar, `lpush N K v` and `rpush N K v`
both return false and leave the whole store unchanged. -/
theorem C8_push_on_scalar_rejected (s : SimpleKV) (N K v : String)
    (ht : type s N K = value_type_info.string) :
    lpush s N K v = (false, s) ∧ rpush s N K v = (false, s) := by
  cases hf : mfind s N with
  | none => simp [type, hf] at ht
  | some km =>
    cases hk : mfind km K with
    | none => simp [type, hf, hk] at ht
    | some b =>
      cases b with
      | str x => simp [lpush, rpush, hf, hk]
      | list l => simp [type, hf, hk] at ht

theorem C8_push_on_scalar_rejected_witness :
    type sampleStore "n" "k" = value_type_info.string ∧
    (lpush sampleStore "n" "k" "v" = (false, sampleStore) ∧
      rpush sampleStore "n" "k" "v" = (false, sampleStore)) :=
  ⟨by decide, C8_push_on_scalar_rejected sampleStore "n" "k" "v" (by decide)⟩

/-- C9 (evaluation at the failing input): in the well-formed store whose only key
`("ns", "k")` holds the one-element list `["v"]`, `rpop` has undefined behaviour and so
returns nothing, while `lpop` returns `"v"` and removes the key. -/
theorem C9_rpop_single_element_undefined :
    WF [("ns", [("k", ValueType.list ["v"])])] ∧
    lmembers [("ns", [("k", ValueType.list ["v"])])] "ns" "k" = some ["v"] ∧
    rpop [("ns", [("k", ValueType.list ["v"])])] "ns" "k" = none ∧
    (lpop [("ns", [("k", ValueType.list ["v"])])] "ns" "k").1 = some "v" ∧
    type (lpop [("ns", [("k", ValueType.list ["v"])])] "ns" "k").2 "ns" "k"
      = value_type_info.none :=
  ⟨by unfold WF; decide, by decide, by decide, by decide, by decide⟩

/-- C10: for every (well-formed) store in which `(N, K)` is absent, holds a scalar, or
holds an empty list, `lpop N K` and `rpop N K` return absent and leave the whole store
unchanged. -/
theorem C10_pop_failure_atomic (s : SimpleKV) (hw : WF s) (N K : String)
    (h : type s N K ≠ value_type_info.list ∨ lmembers s N K = some []) :
    lpop s N K = (none, s) ∧ rpop s N K = some (none, s) :=
  ⟨lpop_unchanged s N K (lookup_ne_list_cons s hw N K h),
    rpop_unchanged s N K (lookup_ne_list_cons s hw N K h)⟩

theorem C10_pop_failure_atomic_witness :
    WF sampleStore ∧
    (type sampleStore "n" "k" ≠ value_type_info.list ∨ lmembers sampleStore "n" "k" = some []) ∧
    (lpop sampleStore "n" "k" = (none, sampleStore) ∧
      rpop sampleStore "n" "k" = some (none, sampleStore)) :=
  ⟨by unfold WF; decide, Or.inl (by decide),
    C10_pop_failure_atomic sampleStore (by unfold WF; decide) "n" "k" (Or.inl (by decide))⟩

/-- C11: for every (well-formed) store, `lset N K i v` returns true if and only if
`(N, K)` holds a list `L` and `i < length L`; in that case afterwards `lindex N K i` is
`v`, the list is `L` with the element at `i` replaced, it has the same length as before,
and every element at an index `j ≠ i` is unchanged. -/
theorem C11_lset_success (s : SimpleKV) (hw : WF s) (N K : String) (i : Nat) (v : String) :
    ((lset s N K i v).1 = true ↔ ∃ L, lmembers s N K = some L ∧ i < L.length) ∧
    ((lset s N K i v).1 = true →
      lindex (lset s N K i v).2 N K i = some v ∧
      llen (lset s N K i v).2 N K = llen s N K ∧
      (∀ L, lmembers s N K = some L →
        lmembers (lset s N K i v).2 N K = some (L.set i v) ∧
        (L.set i v).length = L.length) ∧
      ∀ j, j ≠ i → lindex (lset s N K i v).2 N K j = lindex s N K j) := by
  have hw2 : WF (lset s N K i v).2 := lset_AllKM nodupKM_closed s N K i v hw
  by_cases hc : ∃ l, lookup s N K = some (ValueType.list l) ∧ i < l.length
  · obtain ⟨l, hl, hi⟩ := hc
    obtain ⟨h1, h2⟩ := lset_success s hw N K i v l hl hi
    have hm : lmembers s N K = some l := by rw [lmembers_eq_lookup s N K hw.1, hl]
    refine ⟨⟨fun _ => ⟨l, hm, hi⟩, fun _ => h1⟩, fun _ => ⟨?_, ?_, ?_, ?_⟩⟩
    · rw [lindex_eq_lookup, h2]
      simp [hi]
    · exact llen_lset s hw N K i v N K
    · intro L hL
      rw [hm] at hL
      cases hL
      rw [lmembers_eq_lookup _ N K hw2.1, h2]
      simp
    · intro j hj
      rw [lindex_eq_lookup, h2, lindex_eq_lookup, hl]
      show (l.set i v).get? j = l.get? j
      rw [List.get?_eq_getElem?, List.get?_eq_getElem?]
      exact List.getElem?_set_ne (fun e => hj e.symm)
  · have hr := lset_rejected s hw N K i v (fun l hl => by
      by_contra hlt
      exact hc ⟨l, hl, by omega⟩)
    refine ⟨⟨fun h => ?_, fun h => ?_⟩, fun h => ?_⟩
    · rw [hr] at h
      cases h
    · obtain ⟨L, hL, hi⟩ := h
      exact absurd ⟨L, lookup_of_lmembers s hw N K L hL, hi⟩ hc
    · rw [hr] at h
      cases h

theorem C11_lset_success_witness :
    WF sampleStore ∧
    (((lset sampleStore "n" "j" 1 "q").1 = true ↔
        ∃ L, lmembers sampleStore "n" "j" = some L ∧ 1 < L.length) ∧
      ((lset sampleStore "n" "j" 1 "q").1 = true →
        lindex (lset sampleStore "n" "j" 1 "q").2 "n" "j" 1 = some "q" ∧
        llen (lset sampleStore "n" "j" 1 "q").2 "n" "j" = llen sampleStore "n" "j" ∧
        (∀ L, lmembers sampleStore "n" "j" = some L →
          lmembers (lset sampleStore "n" "j" 1 "q").2 "n" "j" = some (L.set 1 "q") ∧
          (L.set 1 "q").length = L.length) ∧
        ∀ j, j ≠ 1 →
          lindex (lset sampleStore "n" "j" 1 "q").2 "n" "j" j
            = lindex sampleStore "n" "j" j)) :=
  ⟨by unfold WF; decide, C11_lset_success sampleStore (by unfold WF; decide) "n" "j" 1 "q"⟩

/-- C12: for every (well-formed) store, if `(N, K)` holds a list and `index` is at least
its length, or `(N, K)` holds a scalar, or `(N, K)` is absent, then `lset` returns false
and the whole store is unchanged; and no call of `lset` adds or removes a namespace or a
key, or changes the length of any list. -/
theorem C12_lset_rejection (s : SimpleKV) (hw : WF s) (N K : String) (index : Nat)
    (v : String) :
    (((∃ L, lmembers s N K = some L ∧ L.length ≤ index) ∨
        type s N K = value_type_info.string ∨ type s N K = value_type_info.none) →
      lset s N K index v = (false, s)) ∧
    namespaces (lset s N K index v).2 = namespaces s ∧
    (∀ N2, keys (lset s N K index v).2 N2 = keys s N2) ∧
    (∀ N2 K2, llen (lset s N K index v).2 N2 K2 = llen s N2 K2) := by
  refine ⟨?_, lset_map_fst s N K index v, lset_keys s N K index v,
    llen_lset s hw N K index v⟩
  intro h
  apply lset_rejected s hw
  intro l hl
  rcases h with ⟨L, hL, hi⟩ | h | h
  · rw [lmembers_eq_lookup s N K hw.1, hl] at hL
    cases hL
    exact hi
  · rw [type_eq_lookup, hl] at h
    cases h
  · rw [type_eq_lookup, hl] at h
    cases h

theorem C12_lset_rejection_witness :
    WF sampleStore ∧
    ((∃ L, lmembers sampleStore "n" "j" = some L ∧ L.length ≤ 2) ∨
      type sampleStore "n" "j" = value_type_info.string ∨
      type sampleStore "n" "j" = value_type_info.none) ∧
    lset sampleStore "n" "j" 2 "q" = (false, sampleStore) :=
  ⟨by unfold WF; decide, Or.inl ⟨["y", "z"], by decide, by decide⟩,
    (C12_lset_rejection sampleStore (by unfold WF; decide) "n" "j" 2 "q").1
      (Or.inl ⟨["y", "z"], by decide, by decide⟩)⟩

/-- C13: for every (well-formed) store and `(N, K)`, `llen N K` is the number of elements
of `lmembers N K` when `(N, K)` holds a list, and is `-1` when `(N, K)` holds a scalar,
when the key is absent from an existing namespace, and when the namespace is absent. -/
theorem C13_llen_contract (s : SimpleKV) (hw : WF s) (N K : String) :
    (∀ L, lmembers s N K = some L → llen s N K = (L.length : Int)) ∧
    (type s N K = value_type_info.string → llen s N K = -1) ∧
    (ns_exists s N = true → key_exists s N K = false → llen s N K = -1) ∧
    (ns_exists s N = false → llen s N K = -1) := by
  rw [llen_eq_lookup s N K hw.1, lmembers_eq_lookup s N K hw.1, type_eq_lookup,
    key_exists_eq_lookup s N K hw.1]
  cases hl : lookup s N K with
  | none => simp
  | some b =>
    have hn := ns_exists_of_lookup s N K b hl
    cases b with
    | str x => simp [hn]
    | list l => simp [hn]

theorem C13_llen_contract_witness :
    WF sampleStore ∧
    ((∀ L, lmembers sampleStore "nope" "nope" = some L →
        llen sampleStore "nope" "nope" = (L.length : Int)) ∧
      (type sampleStore "nope" "nope" = value_type_info.string →
        llen sampleStore "nope" "nope" = -1) ∧
      (ns_exists sampleStore "nope" = true → key_exists sampleStore "nope" "nope" = false →
        llen sampleStore "nope" "nope" = -1) ∧
      (ns_exists sampleStore "nope" = false → llen sampleStore "nope" "nope" = -1)) :=
  ⟨by unfold WF; decide, C13_llen_contract sampleStore (by unfold WF; decide) "nope" "nope"⟩

/-- C14: for every (well-formed) store, `(N, K)` and index `i`, `lindex N K i` returns a
value if and only if `(N, K)` holds a list `L` and `i < length L`, and that value is the
`i`-th element of `lmembers N K`; it returns absent for a scalar, for a missing key or
namespace, and for an index out of range. -/
theorem C14_lindex_contract (s : SimpleKV) (hw : WF s) (N K : String) (i : Nat) :
    ((lindex s N K i).isSome = true ↔ ∃ L, lmembers s N K = some L ∧ i < L.length) ∧
    (∀ L, lmembers s N K = some L → ∀ h : i < L.length,
      lindex s N K i = some (L.get ⟨i, h⟩)) ∧
    (type s N K = value_type_info.string → lindex s N K i = none) ∧
    (type s N K = value_type_info.none → lindex s N K i = none) ∧
    (∀ L, lmembers s N K = some L → L.length ≤ i → lindex s N K i = none) := by
  rw [lindex_eq_lookup, lmembers_eq_lookup s N K hw.1, type_eq_lookup]
  cases hl : lookup s N K with
  | none => simp
  | some b =>
    cases b with
    | str x => simp
    | list l =>
      refine ⟨?_, ?_, by simp, by simp, ?_⟩
      · simp only [Option.some.injEq, exists_eq_left']
        rw [List.get?_eq_getElem?, Option.isSome_iff_exists]
        constructor
        · rintro ⟨a, ha⟩
          exact (List.getElem?_eq_some_iff.mp ha).1
        · intro h
          exact ⟨l[i], List.getElem?_eq_getElem h⟩
      · intro L hL h
        simp only [Option.some.injEq] at hL
        subst hL
        simp [List.getElem?_eq_getElem h]
      · intro L hL h
        simp only [Option.some.injEq] at hL
        subst hL
        exact List.get?_eq_none.mpr h

theorem C14_lindex_contract_witness :
    WF sampleStore ∧
    (((lindex sampleStore "n" "j" 1).isSome = true ↔
        ∃ L, lmembers sampleStore "n" "j" = some L ∧ 1 < L.length) ∧
      (∀ L, lmembers sampleStore "n" "j" = some L → ∀ h : 1 < L.length,
        lindex sampleStore "n" "j" 1 = some (L.get ⟨1, h⟩)) ∧
      (type sampleStore "n" "j" = value_type_info.string →
        lindex sampleStore "n" "j" 1 = none) ∧
      (type sampleStore "n" "j" = value_type_info.none →
        lindex sampleStore "n" "j" 1 = none) ∧
      (∀ L, lmembers sampleStore "n" "j" = some L → L.length ≤ 1 →
        lindex sampleStore "n" "j" 1 = none)) :=
  ⟨by unfold WF; decide, C14_lindex_contract sampleStore (by unfold WF; decide) "n" "j" 1⟩

/-- C15: for every store and operands neither of which holds a scalar, with `A` and `B`
the operands' lists (the empty list for a missing key or namespace), `lunion` returns a
list `r` without duplicates such that every `x` is in `r` iff it is in `A` or in `B`. -/
theorem C15_union_result (s : SimpleKV) (N1 K1 N2 K2 : String)
    (h1 : type s N1 K1 ≠ value_type_info.string)
    (h2 : type s N2 K2 ≠ value_type_info.string) :
    ∃ r, lunion s N1 K1 N2 K2 = some r ∧ r.Nodup ∧
      ∀ x, x ∈ r ↔ x ∈ (lmembers s N1 K1).getD [] ∨ x ∈ (lmembers s N2 K2).getD [] := by
  refine ⟨usetInsertRange (usetOfRange ((lmembers s N1 K1).getD []))
    ((lmembers s N2 K2).getD []), ?_, ?_, ?_⟩
  · simp [lunion, h1, h2]
  · exact nodup_usetInsertRange _ _ (nodup_usetInsertRange _ _ List.nodup_nil)
  · intro x
    rw [mem_usetInsertRange, mem_usetOfRange]

theorem C15_union_result_witness :
    type exampleStore "a" "l" ≠ value_type_info.string ∧
    type exampleStore "b" "l" ≠ value_type_info.string ∧
    ∃ r, lunion exampleStore "a" "l" "b" "l" = some r ∧ r.Nodup ∧
      ∀ x, x ∈ r ↔ x ∈ (lmembers exampleStore "a" "l").getD [] ∨
        x ∈ (lmembers exampleStore "b" "l").getD [] :=
  ⟨by decide, by decide,
    C15_union_result exampleStore "a" "l" "b" "l" (by decide) (by decide)⟩

/-- C16: for every (well-formed) store in which both operands hold lists `A` and `B`,
`linter` returns exactly the list obtained by keeping the elements of `A` that occur in
`B` and then removing every repeat of an already-kept element; that list has no
duplicates, holds exactly the common elements, and is in the order of `A`. -/
theorem C16_intersection_result (s : SimpleKV) (hw : WF s) (N1 K1 N2 K2 : String)
    (A B : List String) (hA : lmembers s N1 K1 = some A) (hB : lmembers s N2 K2 = some B) :
    linter s N1 K1 N2 K2 = some (interSpec A B) ∧
    (interSpec A B).Nodup ∧
    (∀ x, x ∈ interSpec A B ↔ x ∈ A ∧ x ∈ B) ∧
    List.Sublist (interSpec A B) A := by
  refine ⟨?_, interSpec_props A B⟩
  have t1 : type s N1 K1 = value_type_info.list := by
    rw [type_eq_lookup, lookup_of_lmembers s hw N1 K1 A hA]
  have t2 : type s N2 K2 = value_type_info.list := by
    rw [type_eq_lookup, lookup_of_lmembers s hw N2 K2 B hB]
  simp [linter, hA, hB, t1, t2, linterLoop_spec]

theorem C16_intersection_result_witness :
    WF exampleStore ∧
    lmembers exampleStore "a" "l" = some ["hello", "hello", "hello   "] ∧
    lmembers exampleStore "b" "l" = some ["hello", "howdy", "bye", "bye"] ∧
    (linter exampleStore "a" "l" "b" "l"
        = some (interSpec ["hello", "hello", "hello   "] ["hello", "howdy", "bye", "bye"]) ∧
      (interSpec ["hello", "hello", "hello   "] ["hello", "howdy", "bye", "bye"]).Nodup ∧
      (∀ x, x ∈ interSpec ["hello", "hello", "hello   "] ["hello", "howdy", "bye", "bye"] ↔
        x ∈ ["hello", "hello", "hello   "] ∧ x ∈ ["hello", "howdy", "bye", "bye"]) ∧
      List.Sublist (interSpec ["hello", "hello", "hello   "] ["hello", "howdy", "bye", "bye"])
        ["hello", "hello", "hello   "]) :=
  ⟨by unfold WF; decide, by decide, by decide,
    C16_intersection_result exampleStore (by unfold WF; decide) "a" "l" "b" "l"
      ["hello", "hello", "hello   "] ["hello", "howdy", "bye", "bye"] (by decide) (by decide)⟩

/-- C17: for every store and operands neither of which holds a scalar, with `A` and `B`
the operands' lists (the empty list for a missing key or namespace), `ldiff` returns
exactly the distinct elements of `A` that do not occur in `B`, in the order of their first
occurrence in `A`, without duplicates; a missing second operand yields the deduplicated
`A` and a missing first operand yields the empty list. -/
theorem C17_difference_result (s : SimpleKV) (N1 K1 N2 K2 : String)
    (h1 : type s N1 K1 ≠ value_type_info.string)
    (h2 : type s N2 K2 ≠ value_type_info.string) :
    ldiff s N1 K1 N2 K2
      = some (diffSpec ((lmembers s N1 K1).getD []) ((lmembers s N2 K2).getD [])) ∧
    (diffSpec ((lmembers s N1 K1).getD []) ((lmembers s N2 K2).getD [])).Nodup ∧
    (∀ x, x ∈ diffSpec ((lmembers s N1 K1).getD []) ((lmembers s N2 K2).getD []) ↔
      x ∈ (lmembers s N1 K1).getD [] ∧ x ∉ (lmembers s N2 K2).getD []) ∧
    List.Sublist (diffSpec ((lmembers s N1 K1).getD []) ((lmembers s N2 K2).getD []))
      ((lmembers s N1 K1).getD []) ∧
    (key_exists s N2 K2 = false →
      ldiff s N1 K1 N2 K2 = some (distinctInOrder ((lmembers s N1 K1).getD []))) ∧
    (key_exists s N1 K1 = false → ldiff s N1 K1 N2 K2 = some []) := by
  have he : ldiff s N1 K1 N2 K2
      = some (diffSpec ((lmembers s N1 K1).getD []) ((lmembers s N2 K2).getD [])) := by
    simp [ldiff, h1, h2, ldiffLoop_spec]
  obtain ⟨p1, p2, p3⟩ :=
    diffSpec_props ((lmembers s N1 K1).getD []) ((lmembers s N2 K2).getD [])
  refine ⟨he, p1, p2, p3, ?_, ?_⟩
  · intro hk
    rw [he, lmembers_eq_none_of_key_exists s N2 K2 hk]
    simp [diffSpec]
  · intro hk
    rw [he, lmembers_eq_none_of_key_exists s N1 K1 hk]
    simp [diffSpec, distinctInOrder, keepFirst]

theorem C17_difference_result_witness :
    type exampleStore "a" "l" ≠ value_type_info.string ∧
    type exampleStore "c" "l" ≠ value_type_info.string ∧
    (ldiff exampleStore "a" "l" "c" "l"
        = some (diffSpec ((lmembers exampleStore "a" "l").getD [])
            ((lmembers exampleStore "c" "l").getD [])) ∧
      (diffSpec ((lmembers exampleStore "a" "l").getD [])
        ((lmembers exampleStore "c" "l").getD [])).Nodup ∧
      (∀ x, x ∈ diffSpec ((lmembers exampleStore "a" "l").getD [])
            ((lmembers exampleStore "c" "l").getD []) ↔
        x ∈ (lmembers exampleStore "a" "l").getD [] ∧
        x ∉ (lmembers exampleStore "c" "l").getD []) ∧
      List.Sublist (diffSpec ((lmembers exampleStore "a" "l").getD [])
        ((lmembers exampleStore "c" "l").getD [])) ((lmembers exampleStore "a" "l").getD []) ∧
      (key_exists exampleStore "c" "l" = false →
        ldiff exampleStore "a" "l" "c" "l"
          = some (distinctInOrder ((lmembers exampleStore "a" "l").getD []))) ∧
      (key_exists exampleStore "a" "l" = false →
        ldiff exampleStore "a" "l" "c" "l" = some [])) :=
  ⟨by decide, by decide,
    C17_difference_result exampleStore "a" "l" "c" "l" (by decide) (by decide)⟩

/-- C18: for every store and every pair of operands, `lunion` returns absent if and only
if at least one of the two operands holds a scalar, and likewise `ldiff`; a missing key
or namespace is never by itself a failure. -/
theorem C18_union_difference_failure (s : SimpleKV) (N1 K1 N2 K2 : String) :
    (lunion s N1 K1 N2 K2 = none ↔
      type s N1 K1 = value_type_info.string ∨ type s N2 K2 = value_type_info.string) ∧
    (ldiff s N1 K1 N2 K2 = none ↔
      type s N1 K1 = value_type_info.string ∨ type s N2 K2 = value_type_info.string) := by
  by_cases h : type s N1 K1 = value_type_info.string ∨ type s N2 K2 = value_type_info.string
  · simp [lunion, ldiff, h]
  · simp [lunion, ldiff, h]

/-- C19: for every (well-formed) store and every pair of operands, `linter` returns
absent if and only if at least one operand does not hold a list, and returns a result
exactly when both hold lists; an operand does not hold a list exactly when its namespace
is absent, its key is absent within an existing namespace, or its value is a scalar. -/
theorem C19_intersection_failure (s : SimpleKV) (hw : WF s) (N1 K1 N2 K2 : String) :
    (linter s N1 K1 N2 K2 = none ↔
      type s N1 K1 ≠ value_type_info.list ∨ type s N2 K2 ≠ value_type_info.list) ∧
    ((linter s N1 K1 N2 K2).isSome = true ↔
      type s N1 K1 = value_type_info.list ∧ type s N2 K2 = value_type_info.list) ∧
    (∀ N K, type s N K ≠ value_type_info.list ↔
      ns_exists s N = false ∨ (ns_exists s N = true ∧ key_exists s N K = false) ∨
        type s N K = value_type_info.string) := by
  refine ⟨?_, ?_, ?_⟩
  · simp only [linter, lmembers_eq_lookup s N1 K1 hw.1, lmembers_eq_lookup s N2 K2 hw.1,
      type_eq_lookup]
    cases h1 : lookup s N1 K1 with
    | none => simp
    | some b1 =>
      cases b1 with
      | str x => simp
      | list l1 =>
        cases h2 : lookup s N2 K2 with
        | none => simp
        | some b2 =>
          cases b2 with
          | str x => simp
          | list l2 => simp
  · simp only [linter, lmembers_eq_lookup s N1 K1 hw.1, lmembers_eq_lookup s N2 K2 hw.1,
      type_eq_lookup]
    cases h1 : lookup s N1 K1 with
    | none => simp
    | some b1 =>
      cases b1 with
      | str x => simp
      | list l1 =>
        cases h2 : lookup s N2 K2 with
        | none => simp
        | some b2 =>
          cases b2 with
          | str x => simp
          | list l2 => simp
  · intro N K
    rw [type_eq_lookup, key_exists_eq_lookup s N K hw.1]
    cases hl : lookup s N K with
    | none =>
      cases hn : ns_exists s N <;> simp
    | some b =>
      have hn := ns_exists_of_lookup s N K b hl
      cases b with
      | str x => simp [hn]
      | list l => simp [hn]

theorem C19_intersection_failure_witness :
    WF exampleStore ∧
    ((linter exampleStore "a" "l" "b" "s" = none ↔
        type exampleStore "a" "l" ≠ value_type_info.list ∨
        type exampleStore "b" "s" ≠ value_type_info.list) ∧
      ((linter exampleStore "a" "l" "b" "s").isSome = true ↔
        type exampleStore "a" "l" = value_type_info.list ∧
        type exampleStore "b" "s" = value_type_info.list) ∧
      (∀ N K, type exampleStore N K ≠ value_type_info.list ↔
        ns_exists exampleStore N = false ∨
        (ns_exists exampleStore N = true ∧ key_exists exampleStore N K = false) ∨
        type exampleStore N K = value_type_info.string)) :=
  ⟨by unfold WF; decide,
    C19_intersection_failure exampleStore (by unfold WF; decide) "a" "l" "b" "s"⟩

/-- C20 (evaluation at the failing input): in the example store the pair `("c", "l")` is
missing and `("a", "l")` holds a list; `linter` with the missing pair as either operand,
and on the empty store, returns absent, whereas the header says that non-existent values
are treated as empty lists; `lunion` and `ldiff` at the same operands do return a list. -/
theorem C20_linter_missing_operand_absent :
    type exampleStore "c" "l" = value_type_info.none ∧
    type exampleStore "a" "l" = value_type_info.list ∧
    linter exampleStore "a" "l" "c" "l" = none ∧
    linter exampleStore "c" "l" "a" "l" = none ∧
    linter [] "a" "l" "b" "l" = none ∧
    lunion exampleStore "a" "l" "c" "l" = some ["hello   ", "hello"] ∧
    ldiff exampleStore "c" "l" "a" "l" = some [] ∧
    ldiff exampleStore "a" "l" "c" "l" = some ["hello", "hello   "] :=
  ⟨by decide, by decide, by decide, by decide, by decide, by decide, by decide, by decide⟩

/-- C21 (evaluation at the failing input): for a pair whose namespace is missing, for a
key missing from an existing namespace, and on the empty store, `llen` returns `-1`,
whereas the header says that non-existent values are treated as empty lists and that
`-1` is returned for a string value; `lunion` and `ldiff` at the same missing pair do
treat it as the empty list. -/
theorem C21_llen_absent_is_minus_one :
    ns_exists sampleStore "nope" = false ∧
    llen sampleStore "nope" "nope" = -1 ∧
    ns_exists sampleStore "n" = true ∧
    key_exists sampleStore "n" "nope" = false ∧
    llen sampleStore "n" "nope" = -1 ∧
    llen [] "a" "b" = -1 ∧
    lunion sampleStore "nope" "nope" "nope" "nope" = some [] ∧
    ldiff sampleStore "nope" "nope" "nope" "nope" = some [] :=
  ⟨by decide, by decide, by decide, by decide, by decide, by decide, by decide, by decide⟩

/-- C22: for every store and every choice of operands, the calls of `lunion`, `linter`
and `ldiff` leave `kv_store` exactly as it was, whether they return a result or absent,
and return what the functions of the store compute. -/
theorem C22_set_operations_pure (s : SimpleKV) (N1 K1 N2 K2 : String) :
    lunion_call s N1 K1 N2 K2 = (lunion s N1 K1 N2 K2, s) ∧
    linter_call s N1 K1 N2 K2 = (linter s N1 K1 N2 K2, s) ∧
    ldiff_call s N1 K1 N2 K2 = (ldiff s N1 K1 N2 K2, s) := by
  refine ⟨?_, ?_, ?_⟩
  · simp only [lunion_call, lunion, type_call, lmembers_call]
    split_ifs <;> rfl
  · simp only [linter_call, linter, type_call, lmembers_call]
    cases h1 : lmembers s N1 K1 with
    | none => rfl
    | some l1 =>
      cases h2 : lmembers s N2 K2 with
      | none => rfl
      | some l2 =>
        by_cases t1 : type s N1 K1 = value_type_info.list
        · by_cases t2 : type s N2 K2 = value_type_info.list
          · simp [t1, t2]
          · simp [t1, t2]
        · simp [t1]
  · simp only [ldiff_call, ldiff, type_call, lmembers_call]
    split_ifs <;> rfl

/-- C23: in every (well-formed) store where one key holds the list
`["hello", "hello", "hello   "]` and another holds `["hello", "howdy", "bye", "bye"]`,
`lunion` is a permutation of the four strings `"hello"`, `"hello   "`, `"howdy"`, `"bye"`
(where `"hello"` and `"hello   "` are distinct), `linter` is `["hello"]` and `ldiff` is
`["hello   "]`. -/
theorem C23_set_algebra_example (s : SimpleKV) (hw : WF s) (N1 K1 N2 K2 : String)
    (hA : lmembers s N1 K1 = some ["hello", "hello", "hello   "])
    (hB : lmembers s N2 K2 = some ["hello", "howdy", "bye", "bye"]) :
    (∃ r, lunion s N1 K1 N2 K2 = some r ∧
      List.Perm r ["hello", "hello   ", "howdy", "bye"]) ∧
    "hello" ≠ "hello   " ∧
    linter s N1 K1 N2 K2 = some ["hello"] ∧
    ldiff s N1 K1 N2 K2 = some ["hello   "] := by
  have t1 := type_list_of_lmembers s hw N1 K1 _ hA
  have t2 := type_list_of_lmembers s hw N2 K2 _ hB
  refine ⟨⟨usetInsertRange (usetOfRange ["hello", "hello", "hello   "])
    ["hello", "howdy", "bye", "bye"], ?_, by decide⟩, by decide, ?_, ?_⟩
  · simp [lunion, t1, t2, hA, hB]
  · simp only [linter, hA, hB, t1, t2]
    decide
  · simp only [ldiff, hA, hB, t1, t2]
    decide

theorem C23_set_algebra_example_witness :
    WF exampleStore ∧
    lmembers exampleStore "a" "l" = some ["hello", "hello", "hello   "] ∧
    lmembers exampleStore "b" "l" = some ["hello", "howdy", "bye", "bye"] ∧
    ((∃ r, lunion exampleStore "a" "l" "b" "l" = some r ∧
        List.Perm r ["hello", "hello   ", "howdy", "bye"]) ∧
      "hello" ≠ "hello   " ∧
      linter exampleStore "a" "l" "b" "l" = some ["hello"] ∧
      ldiff exampleStore "a" "l" "b" "l" = some ["hello   "]) :=
  ⟨by unfold WF; decide, by decide, by decide,
    C23_set_algebra_example exampleStore (by unfold WF; decide) "a" "l" "b" "l"
      (by decide) (by decide)⟩

/-- C24: in every store reachable from the empty store by the public operations no key
holds an empty list; `llen N K` is never `0` and `lmembers N K`, when present, is
non-empty. -/
theorem C24_no_empty_list (s : SimpleKV) (h : Reachable s) (N K : String) :
    (∀ p ∈ s, ∀ q ∈ p.2, q.2 ≠ ValueType.list []) ∧
    llen s N K ≠ 0 ∧
    (∀ L, lmembers s N K = some L → L ≠ []) := by
  have hi := h.inv
  have hl : lookup s N K ≠ some (ValueType.list []) := by
    intro e
    obtain ⟨km, hf, hk⟩ := (lookup_some_iff s N K _).mp e
    exact (hi.2 (N, km) (mfind_some_mem s N km hf)).2.2 (K, ValueType.list [])
      (mfind_some_mem km K _ hk) rfl
  refine ⟨fun p hp q hq => (hi.2 p hp).2.2 q hq, ?_, ?_⟩
  · rw [llen_eq_lookup s N K hi.1]
    cases hk : lookup s N K with
    | none => simp
    | some b =>
      cases b with
      | str x => simp
      | list l =>
        cases l with
        | nil => exact absurd hk hl
        | cons a rest =>
          show ((a :: rest).length : Int) ≠ 0
          rw [List.length_cons]
          exact Int.natCast_ne_zero.mpr (Nat.succ_ne_zero _)
  · intro L hL e
    subst e
    exact hl (lookup_of_lmembers s hi.toWF N K [] hL)

theorem C24_no_empty_list_witness :
    Reachable (lpop (rpush (rpush [] "n" "k" "a").2 "n" "k" "b").2 "n" "k").2 ∧
    ((∀ p ∈ (lpop (rpush (rpush [] "n" "k" "a").2 "n" "k" "b").2 "n" "k").2,
        ∀ q ∈ p.2, q.2 ≠ ValueType.list []) ∧
      llen (lpop (rpush (rpush [] "n" "k" "a").2 "n" "k" "b").2 "n" "k").2 "n" "k" ≠ 0 ∧
      (∀ L, lmembers (lpop (rpush (rpush [] "n" "k" "a").2 "n" "k" "b").2 "n" "k").2 "n" "k"
          = some L → L ≠ [])) :=
  ⟨Reachable.lpop _ "n" "k"
      (Reachable.rpush _ "n" "k" "b" (Reachable.rpush [] "n" "k" "a" Reachable.init)),
    C24_no_empty_list _
      (Reachable.lpop _ "n" "k"
        (Reachable.rpush _ "n" "k" "b" (Reachable.rpush [] "n" "k" "a" Reachable.init)))
      "n" "k"⟩

/-- C25: for every (well-formed) store, every mutating operation applied to `(N, K)` and
every other pair `(N2, K2) ≠ (N, K)`, in the same or in another namespace, `type`,
`sget` and `lmembers` of `(N2, K2)` are the same after the operation as before it; for
`rpop` this is said of every call that has defined behaviour. -/
theorem C25_mutation_frame (s : SimpleKV) (hw : WF s) (N K N2 K2 : String)
    (h : ¬ (N2 = N ∧ K2 = K)) :
    (∀ v, SameAt s (sset s N K v) N2 K2) ∧
    SameAt s (del s N K).2 N2 K2 ∧
    (∀ i v, SameAt s (lset s N K i v).2 N2 K2) ∧
    (∀ v, SameAt s (lpush s N K v).2 N2 K2) ∧
    (∀ v, SameAt s (rpush s N K v).2 N2 K2) ∧
    SameAt s (lpop s N K).2 N2 K2 ∧
    (∀ r s2, rpop s N K = some (r, s2) → SameAt s s2 N2 K2) := by
  refine ⟨?_, ?_, ?_, ?_, ?_, ?_, ?_⟩
  · intro v
    exact sameAt_of_lookup s _ hw (sset_AllKM nodupKM_closed s N K v hw) N2 K2
      (lookup_sset_other s N K v N2 K2 h)
  · exact sameAt_of_lookup s _ hw (del_AllKM nodupKM_closed s N K hw) N2 K2
      (lookup_del_other s hw N K N2 K2 h)
  · intro i v
    exact sameAt_of_lookup s _ hw (lset_AllKM nodupKM_closed s N K i v hw) N2 K2
      (lookup_lset_other s hw N K i v N2 K2 h)
  · intro v
    exact sameAt_of_lookup s _ hw (lpush_AllKM nodupKM_closed s N K v hw) N2 K2
      (lookup_lpush_other s N K v N2 K2 h)
  · intro v
    exact sameAt_of_lookup s _ hw (rpush_AllKM nodupKM_closed s N K v hw) N2 K2
      (lookup_rpush_other s N K v N2 K2 h)
  · exact sameAt_of_lookup s _ hw (lpop_AllKM nodupKM_closed s N K hw) N2 K2
      (lookup_lpop_other s hw N K N2 K2 h)
  · intro r s2 hr
    exact sameAt_of_lookup s s2 hw (rpop_AllKM nodupKM_closed s N K r s2 hr hw) N2 K2
      (lookup_rpop_other s hw N K r s2 hr N2 K2 h)

theorem C25_mutation_frame_witness :
    WF sampleStore ∧ ¬ ("n" = "n" ∧ "j" = "k") ∧
    ((∀ v, SameAt sampleStore (sset sampleStore "n" "k" v) "n" "j") ∧
      SameAt sampleStore (del sampleStore "n" "k").2 "n" "j" ∧
      (∀ i v, SameAt sampleStore (lset sampleStore "n" "k" i v).2 "n" "j") ∧
      (∀ v, SameAt sampleStore (lpush sampleStore "n" "k" v).2 "n" "j") ∧
      (∀ v, SameAt sampleStore (rpush sampleStore "n" "k" v).2 "n" "j") ∧
      SameAt sampleStore (lpop sampleStore "n" "k").2 "n" "j" ∧
      (∀ r s2, rpop sampleStore "n" "k" = some (r, s2) → SameAt sampleStore s2 "n" "j")) :=
  ⟨by unfold WF; decide, by decide,
    C25_mutation_frame sampleStore (by unfold WF; decide) "n" "k" "n" "j" (by decide)⟩

/-- C26 (evaluation at the failing inputs): for every namespace `n`, key `k` and string
`a`, on the well-formed store whose only namespace `n` has the only key `k` holding the
one-element list `[a]`, the call `rpop n k` does not return: it erases through the
iterator `first_iter` after having erased it.  `lpop` on that store returns `a`. -/
theorem C26_rpop_does_not_return (n k a : String) :
    WF [(n, [(k, ValueType.list [a])])] ∧
    lmembers [(n, [(k, ValueType.list [a])])] n k = some [a] ∧
    rpop [(n, [(k, ValueType.list [a])])] n k = none ∧
    lpop [(n, [(k, ValueType.list [a])])] n k = (some a, []) := by
  refine ⟨?_, ?_, ?_, ?_⟩
  · simp [WF]
  · simp [lmembers, scan, scanKeys]
  · simp [rpop, mfind, merase]
  · simp [lpop, mfind, merase]

/-- C27: for every (well-formed) store and `(N, K)`, `key_exists N K` is true if and only
if the namespace `N` exists and `K` is among its keys, which holds if and only if
`type N K` is not `none`; and `key_exists N K` implies `ns_exists N`. -/
theorem C27_existence_agrees_with_type (s : SimpleKV) (hw : WF s) (N K : String) :
    (key_exists s N K = true ↔ (ns_exists s N = true ∧ K ∈ keys s N)) ∧
    (key_exists s N K = true ↔ type s N K ≠ value_type_info.none) ∧
    (key_exists s N K = true → ns_exists s N = true) := by
  have h3 : key_exists s N K = true → ns_exists s N = true := by
    intro hk
    rw [key_exists_eq_lookup s N K hw.1] at hk
    cases hl : lookup s N K with
    | none => simp [hl] at hk
    | some b => exact ns_exists_of_lookup s N K b hl
  refine ⟨⟨fun hk => ⟨h3 hk, (key_exists_iff_mem_keys s hw N K).mp hk⟩,
    fun hk => (key_exists_iff_mem_keys s hw N K).mpr hk.2⟩, ?_, h3⟩
  rw [key_exists_eq_lookup s N K hw.1, type_eq_lookup]
  cases hl : lookup s N K with
  | none => simp
  | some b =>
    cases b with
    | str x => simp
    | list l => simp

theorem C27_existence_agrees_with_type_witness :
    WF sampleStore ∧
    ((key_exists sampleStore "n" "k" = true ↔
        (ns_exists sampleStore "n" = true ∧ "k" ∈ keys sampleStore "n")) ∧
      (key_exists sampleStore "n" "k" = true ↔
        type sampleStore "n" "k" ≠ value_type_info.none) ∧
      (key_exists sampleStore "n" "k" = true → ns_exists sampleStore "n" = true)) :=
  ⟨by unfold WF; decide,
    C27_existence_agrees_with_type sampleStore (by unfold WF; decide) "n" "k"⟩

/-- C28: for every (well-formed) store in which both operands hold lists `A` and `B`,
the results `I` of `linter` and `D` of `ldiff` are disjoint, every element of `A` occurs
in exactly one of them, neither contains an element outside `A`, and
`length I + length D` is the number of distinct elements of `A`. -/
theorem C28_inter_diff_partition (s : SimpleKV) (hw : WF s) (N1 K1 N2 K2 : String)
    (A B : List String) (hA : lmembers s N1 K1 = some A) (hB : lmembers s N2 K2 = some B) :
    ∃ I D, linter s N1 K1 N2 K2 = some I ∧ ldiff s N1 K1 N2 K2 = some D ∧
      (∀ x, ¬ (x ∈ I ∧ x ∈ D)) ∧
      (∀ x ∈ A, (x ∈ I ∧ x ∉ D) ∨ (x ∉ I ∧ x ∈ D)) ∧
      (∀ x ∈ I, x ∈ A) ∧ (∀ x ∈ D, x ∈ A) ∧
      I.length + D.length = A.toFinset.card := by
  have t1 := type_list_of_lmembers s hw N1 K1 A hA
  have t2 := type_list_of_lmembers s hw N2 K2 B hB
  obtain ⟨_, i2, _⟩ := interSpec_props A B
  obtain ⟨_, d2, _⟩ := diffSpec_props A B
  refine ⟨interSpec A B, diffSpec A B, ?_, ?_, ?_, ?_, ?_, ?_, ?_⟩
  · simp [linter, hA, hB, t1, t2, linterLoop_spec]
  · simp [ldiff, hA, hB, t1, t2, ldiffLoop_spec]
  · intro x hx
    exact ((d2 x).mp hx.2).2 ((i2 x).mp hx.1).2
  · intro x hx
    rw [i2, d2]
    by_cases hb : x ∈ B
    · exact Or.inl ⟨⟨hx, hb⟩, fun e => e.2 hb⟩
    · exact Or.inr ⟨fun e => hb e.2, ⟨hx, hb⟩⟩
  · intro x hx
    exact ((i2 x).mp hx).1
  · intro x hx
    exact ((d2 x).mp hx).1
  · rw [← distinctInOrder_length]
    exact keepFirst_split B [] A

theorem C28_inter_diff_partition_witness :
    WF exampleStore ∧
    lmembers exampleStore "a" "l" = some ["hello", "hello", "hello   "] ∧
    lmembers exampleStore "b" "l" = some ["hello", "howdy", "bye", "bye"] ∧
    ∃ I D, linter exampleStore "a" "l" "b" "l" = some I ∧
      ldiff exampleStore "a" "l" "b" "l" = some D ∧
      (∀ x, ¬ (x ∈ I ∧ x ∈ D)) ∧
      (∀ x ∈ ["hello", "hello", "hello   "], (x ∈ I ∧ x ∉ D) ∨ (x ∉ I ∧ x ∈ D)) ∧
      (∀ x ∈ I, x ∈ ["hello", "hello", "hello   "]) ∧
      (∀ x ∈ D, x ∈ ["hello", "hello", "hello   "]) ∧
      I.length + D.length = ["hello", "hello", "hello   "].toFinset.card :=
  ⟨by unfold WF; decide, by decide, by decide,
    C28_inter_diff_partition exampleStore (by unfold WF; decide) "a" "l" "b" "l"
      ["hello", "hello", "hello   "] ["hello", "howdy", "bye", "bye"] (by decide) (by decide)⟩

end simplekv
